import Mathlib

/-!
Verification of the pairing-and-serialization core of the Mars txt/word
converter (src/converter.py) against its specification.

Text is modelled as `List Char` (one element per Unicode code point, as in
Python strings).  Each Python string primitive used by the converter is
embedded as an executable Lean function, and the converter's operations
(`read_lines_auto`, `export_paths_to_word`, `export_to_word`'s pairing,
`import_from_word`, `_unique_path`) are translated into pure functions over
an explicit filesystem model.
-/

namespace Mars

/-- Program strings are lists of characters. -/
abbrev Cell := List Char

/-- Coerce a Lean string literal to the `Cell` representation. -/
def S (s : String) : Cell := s.data

/-- Whitespace recognized by Python's `str.strip()`: exactly the characters
for which CPython's `str.isspace()` holds — ASCII whitespace, the separator
controls U+001C-U+001F, NEL U+0085, NBSP U+00A0, and the Unicode space
characters. -/
def pyIsSpace (c : Char) : Bool :=
  c = ' ' || c = '\t' || c = '\n' || c = '\r' || c = '\x0b' || c = '\x0c' ||
  c = '\x1c' || c = '\x1d' || c = '\x1e' || c = '\x1f' || c = '\x85' ||
  c = '\xa0' || c = '\u1680' || ('\u2000' ≤ c && c ≤ '\u200a') ||
  c = '\u2028' || c = '\u2029' || c = '\u202f' || c = '\u205f' || c = '\u3000'

/-- Drop leading Python whitespace (`str.lstrip()`). -/
def lstripWS (l : Cell) : Cell := l.dropWhile pyIsSpace

/-- Drop trailing Python whitespace (`str.rstrip()`). -/
def rstripWS (l : Cell) : Cell := (l.reverse.dropWhile pyIsSpace).reverse

/-- Python's `str.strip()`: drop leading and trailing whitespace. -/
def pyStrip (l : Cell) : Cell := rstripWS (lstripWS l)

/-- Python's `str.startswith(p)`: `p` is a prefix of `l`. -/
def startsWithS : Cell → Cell → Bool
  | _, [] => true
  | [], _ :: _ => false
  | c :: l, p :: ps => c = p && startsWithS l ps

/-- Python's `str.endswith(p)`: `p` is a suffix of `l`. -/
def endsWithS (l p : Cell) : Bool := startsWithS l.reverse p.reverse

/-- Fuel-indexed worker for `replaceAll`; the fuel starts at the length of the
subject string, which bounds the number of steps of Python's left-to-right
non-overlapping `str.replace`. -/
def replaceAllAux (pat sub : Cell) : Nat → Cell → Cell
  | 0, l => l
  | _ + 1, [] => []
  | fuel + 1, c :: rest =>
    if startsWithS (c :: rest) pat then
      sub ++ replaceAllAux pat sub fuel ((c :: rest).drop pat.length)
    else
      c :: replaceAllAux pat sub fuel rest

/-- Python's `str.replace(pat, sub)` for a non-empty pattern: replace every
non-overlapping occurrence, scanning left to right. -/
def replaceAll (pat sub l : Cell) : Cell := replaceAllAux pat sub l.length l

/-- Python's `str.lower()`, restricted to ASCII letters (the converter only
compares lowercased text against the ASCII literals "srt", ".txt", ".srt"). -/
def pyLower (l : Cell) : Cell := l.map Char.toLower

/-- Everything after the first ':' — Python's `s.split(":", 1)[1]` for a
string that contains a colon. -/
def afterFirstColon (l : Cell) : Cell := (l.dropWhile (fun c => c ≠ ':')).drop 1

/-- POSIX `os.path.basename`: the part after the last '/'. -/
def basenameOf (p : Cell) : Cell := (p.reverse.takeWhile (fun c => c ≠ '/')).reverse

/-- The directory part complementary to `basenameOf`. -/
def dirPartOf (p : Cell) : Cell := p.take (p.length - (basenameOf p).length)

/-- `os.path.splitext`: split off the extension at the last dot of the
basename, except when every character before that dot (within the basename)
is itself a dot, in which case there is no extension. -/
def splitextOf (p : Cell) : Cell × Cell :=
  let base := basenameOf p
  let revBase := base.reverse
  let extRev := revBase.takeWhile (fun c => c ≠ '.')
  if extRev.length = base.length then (p, [])
  else
    let stemRev := revBase.drop (extRev.length + 1)
    if stemRev.all (fun c => c = '.') then (p, [])
    else (dirPartOf p ++ stemRev.reverse, '.' :: extRev.reverse)

/-- Line-terminator characters removed by `line.rstrip("\r\n")` in
`read_lines_auto` (src/converter.py line 40). -/
def isCRLF (c : Char) : Bool := c = '\r' || c = '\n'

/-- `line.rstrip("\r\n")`: remove trailing carriage returns and newlines. -/
def rstripCRLF (l : Cell) : Cell := (l.reverse.dropWhile isCRLF).reverse

/-- Universal-newline translation performed by Python's text-mode `open`:
"\r\n" and a lone "\r" both become "\n". -/
def translateNL : Cell → Cell
  | [] => []
  | c :: rest =>
    if c = '\r' then
      match rest with
      | [] => ['\n']
      | d :: rest2 =>
        if d = '\n' then '\n' :: translateNL rest2
        else '\n' :: translateNL (d :: rest2)
    else c :: translateNL rest

/-- Iterating a Python text file yields its physical lines, each keeping its
trailing '\n' except possibly the last; an empty file yields no lines. -/
def splitPhysLines : Cell → List Cell
  | [] => []
  | c :: cs =>
    if c = '\n' then [c] :: splitPhysLines cs
    else
      match splitPhysLines cs with
      | [] => [[c]]
      | l :: ls => (c :: l) :: ls

/-- Line decomposition of `read_lines_auto` (src/converter.py lines 38-40):
iterate the text-mode file (universal newlines) and strip only the trailing
"\r\n" characters from each physical line. -/
def read_lines_core (content : Cell) : List Cell :=
  (splitPhysLines (translateNL content)).map rstripCRLF

/-- The Unicode replacement character produced by `errors='replace'`. -/
def replacementChar : Char := Char.ofNat 0xFFFD

/-- Decoding one byte of a single-byte encoding under `errors='replace'`,
as CPython's codecs do for `open(..., errors='replace')`: a byte the encoding
does not map becomes the replacement character instead of raising.  `valid`
tells which bytes the encoding maps and `table` gives their characters. -/
def decodeByteReplace (valid : Nat → Bool) (table : Nat → Char) (b : Nat) : Char :=
  if valid b then table b else replacementChar

/-- Decode a whole byte sequence with `errors='replace'` (total: never
raises, unlike strict decoding). -/
def decodeReplace (valid : Nat → Bool) (table : Nat → Char) (bs : List Nat) : Cell :=
  bs.map (decodeByteReplace valid table)

/-- `read_lines_auto` applied to the raw bytes of the file for a single-byte
encoding described by `(valid, table)`. -/
def read_lines_auto_bytes (valid : Nat → Bool) (table : Nat → Char) (bs : List Nat) :
    List Cell :=
  read_lines_core (decodeReplace valid table bs)

/-- Retry structure of `read_lines_auto` (src/converter.py lines 37-50): if
opening/decoding under the chosen encoding fails with a non-decoding error
(`firstTry = none`), the file is read once more under the default encoding;
only when that retry also fails (`fallback = none`) does the error
propagate (`none` result).  A successful attempt yields the decoded content,
which is then split into lines. -/
def read_lines_auto_retry (firstTry fallback : Option Cell) : Option (List Cell) :=
  match firstTry with
  | some content => some (read_lines_core content)
  | none =>
    match fallback with
    | some content => some (read_lines_core content)
    | none => none

/-! ## The tabular document -/

/-- One two-column table row of the Word document.  (python-docx tables in
scope are rectangular with two columns; `import_from_word` substitutes the
empty string for a missing second cell, so both cells are always present.) -/
structure Row where
  c0 : Cell
  c1 : Cell
deriving DecidableEq

/-- The literal prefix of the header row, `"Тип файлов:"`. -/
def headerMark : Cell := S "Тип файлов:"

/-- The literal prefix of a marker row, `"Файл:"`. -/
def markerMark : Cell := S "Файл:"

/-- The global header row written by both exporters
(src/converter.py lines 112-114): `"Тип файлов: {ext}"` and an empty cell. -/
def headerRow (ext : Cell) : Row := ⟨headerMark ++ [' '] ++ ext, []⟩

/-- The marker row announcing a file section
(src/converter.py lines 130-139): `"Файл: {filename}"` and an empty cell. -/
def markerRow (name : Cell) : Row := ⟨markerMark ++ [' '] ++ name, []⟩

/-- The aligned data rows of one file section (src/converter.py lines
142-146): one row per index below `max |a| |b|`, the shorter side padded
with empty strings. -/
def dataRows (a b : List Cell) : List Row :=
  (List.range (max a.length b.length)).map (fun i => ⟨a.getD i [], b.getD i []⟩)

/-- A full file section: its marker row followed by its data rows. -/
def sectionRows (name : Cell) (a b : List Cell) : List Row :=
  markerRow name :: dataRows a b

/-- The rows of the exported document for already-read, already-paired input:
the header row, then every section in order (src/converter.py lines
109-146). -/
def exportTable (ext : Cell) (pairs : List (Cell × List Cell × List Cell)) :
    List Row :=
  headerRow ext :: (pairs.map (fun x => sectionRows x.1 x.2.1 x.2.2)).flatten

/-! ## Python-dict model

`import_from_word` and `export_paths_to_word` use `dict`s keyed by strings.
A Python dict is an insertion-ordered association list in which re-assigning
an existing key replaces its value in place. -/

/-- Lookup in the association-list model of a Python dict. -/
def dictGet {α : Type} (d : List (Cell × α)) (k : Cell) : Option α :=
  match d with
  | [] => none
  | (k1, v) :: rest => if k1 = k then some v else dictGet rest k

/-- Assignment `d[k] = v` in the association-list model of a Python dict:
replace in place if the key exists, else append. -/
def dictSet {α : Type} (d : List (Cell × α)) (k : Cell) (v : α) : List (Cell × α) :=
  match d with
  | [] => [(k, v)]
  | (k1, v1) :: rest =>
    if k1 = k then (k1, v) :: rest else (k1, v1) :: dictSet rest k v

/-- The keys of a dict, in insertion order. -/
def dictKeys {α : Type} (d : List (Cell × α)) : List Cell := d.map (fun kv => kv.1)

/-! ## Importer: parsing the document (src/converter.py lines 255-289) -/

/-- The declared type of one table: read from its first row if that row's
first cell starts with the header literal (src/converter.py lines 259-261,
`text.split(":", 1)[1].strip().lower()`). -/
def tableDeclares : List Row → Option Cell
  | [] => none
  | r :: _ =>
    if startsWithS r.c0 headerMark then
      some (pyLower (pyStrip (afterFirstColon r.c0)))
    else none

/-- The declared file format of the document: the declaration of the first
table that has one, defaulting to "txt" (src/converter.py lines 258-262). -/
def detectFileFormat : List (List Row) → Cell
  | [] => S "txt"
  | t :: ts =>
    match tableDeclares t with
    | some f => f
    | none => detectFileFormat ts

/-- `ext = "srt" if file_format == "srt" else "txt"` (line 263). -/
def extOf (fmt : Cell) : Cell := if fmt = S "srt" then S "srt" else S "txt"

/-- `rus_write_encoding = "utf-8" if ext == "srt" else "cp1251"` (line 264). -/
def rusEncOf (ext : Cell) : Cell :=
  if ext = S "srt" then S "utf-8" else S "cp1251"

/-- The basename recovered from a (stripped) marker cell:
`first.replace("Файл:", "").strip()` (src/converter.py line 281). -/
def markerName (first : Cell) : Cell := pyStrip (replaceAll markerMark [] first)

/-- State of the row scan: the section currently being filled and the
accumulated per-basename line sequences (`current_filename` and `file_data`
of src/converter.py lines 267-268). -/
structure ScanState where
  current : Option Cell
  data : List (Cell × (List Cell × List Cell))
deriving DecidableEq

/-- Processing one table row (src/converter.py lines 272-289).  `idx` is the
row's index within its table.  Line 286 tests `if current_filename:`, which
is false both when no marker has been seen (`None`) and when the recovered
basename is the empty string (falsy), so data rows under an empty-basename
section are discarded.  The `dictGet … | none` fallback is dead code:
whenever `current` is set, its key is present (the marker branch creates
it). -/
def scanRow (idx : Nat) (st : ScanState) (r : Row) : ScanState :=
  let first := pyStrip r.c0
  let second := pyStrip r.c1
  if idx = 0 && startsWithS first headerMark then st
  else if startsWithS first markerMark then
    let name := markerName first
    { current := some name, data := dictSet st.data name ([], []) }
  else
    match st.current with
    | some name =>
      if name = [] then st
      else
        match dictGet st.data name with
        | some ab => { st with data := dictSet st.data name (ab.1 ++ [first], ab.2 ++ [second]) }
        | none => st
    | none => st

/-- Scan a list of rows starting at row index `idx`. -/
def scanRowsAux (idx : Nat) (st : ScanState) : List Row → ScanState
  | [] => st
  | r :: rs => scanRowsAux (idx + 1) (scanRow idx st r) rs

/-- Scan one table from its row 0 (the enumerate of line 272 restarts per
table). -/
def scanTable (st : ScanState) (t : List Row) : ScanState := scanRowsAux 0 st t

/-- Scan every table of the document in order; `current_filename` carries
over from one table to the next (it is declared outside the table loop). -/
def scanTables (tables : List (List Row)) : ScanState :=
  tables.foldl scanTable ⟨none, []⟩

/-! ## Importer: writing the files (src/converter.py lines 63-73, 291-312) -/

/-- Decimal digit string of a natural number. -/
def natDigits (n : Nat) : Cell := (Nat.repr n).data

/-- The i-th uniquification candidate `f"{base}_{i}{ext}"`
(src/converter.py line 70). -/
def uniqueCandidate (base ext : Cell) (i : Nat) : Cell :=
  base ++ S "_" ++ natDigits i ++ ext

/-- The unbounded `while True` search of `_unique_path`, made total with
fuel; `none` models only fuel exhaustion, which the real loop cannot report
(it would keep searching). -/
def uniquePathAux (ex : Cell → Bool) (base ext : Cell) : Nat → Nat → Option Cell
  | 0, _ => none
  | fuel + 1, i =>
    let cand := uniqueCandidate base ext i
    if ex cand then uniquePathAux ex base ext fuel (i + 1) else some cand

/-- `_unique_path` (src/converter.py lines 63-73): return the path itself if
free, else append `_1`, `_2`, … before the extension until a free path is
found.  `ex` is the `os.path.exists` of the moment of the call. -/
def unique_path (ex : Cell → Bool) (fuel : Nat) (p : Cell) : Option Cell :=
  if ex p then
    let be := splitextOf p
    uniquePathAux ex be.1 be.2 fuel 1
  else some p

/-- POSIX `os.path.join` for a directory without trailing separator and a
relative name. -/
def joinPath (d f : Cell) : Cell := d ++ S "/" ++ f

/-- `"\n".join(lines)` (src/converter.py lines 306, 308). -/
def joinLines (ls : List Cell) : Cell := List.intercalate (S "\n") ls

/-- One performed file write: its path, content and text encoding. -/
structure WriteEff where
  path : Cell
  content : Cell
  enc : Cell
deriving DecidableEq

/-- Errors `import_from_word` can raise.  `uniqFuel` is the model's stand-in
for non-termination of `_unique_path` (out of fuel). -/
inductive ImpErr
  | notFound
  | uniqFuel
deriving DecidableEq

/-- Everything observable about one `import_from_word` call: the output
directories created, the (side-A, side-B) write pair of each section in
order, the progress callbacks issued, and the error raised, if any. -/
structure ImportResult where
  createdDirs : List Cell
  writes : List (WriteEff × WriteEff)
  progressed : List (Nat × Nat)
  error : Option ImpErr
deriving DecidableEq

/-- The write loop of `import_from_word` (src/converter.py lines 291-312).
`exist` is the set of paths existing on disk when the item is processed;
both paths of an item are uniquified against it before either write, and the
two writes then extend it.  Returns the write pairs, the progress calls and
the error, if any. -/
def importWriteLoop (overwrite : Bool) (ext rusEnc engDir rusDir : Cell)
    (fuel total : Nat) :
    Nat → List Cell → List (Cell × (List Cell × List Cell)) →
    List (WriteEff × WriteEff) × List (Nat × Nat) × Option ImpErr
  | _, _, [] => ([], [], none)
  | i, exist, (name, ab) :: rest =>
    let fname :=
      if endsWithS (pyLower name) ('.' :: ext) then name else name ++ '.' :: ext
    let ep := joinPath engDir fname
    let rp := joinPath rusDir fname
    let epOpt := if overwrite then some ep else unique_path (fun q => exist.contains q) fuel ep
    let rpOpt := if overwrite then some rp else unique_path (fun q => exist.contains q) fuel rp
    match epOpt, rpOpt with
    | some ep2, some rp2 =>
      let res := importWriteLoop overwrite ext rusEnc engDir rusDir fuel total
        (i + 1) (exist ++ [ep2, rp2]) rest
      ((⟨ep2, joinLines ab.1, S "utf-8"⟩, ⟨rp2, joinLines ab.2, rusEnc⟩) :: res.1,
       (i, total) :: res.2.1, res.2.2)
    | _, _ => ([], [], some .uniqFuel)

/-- `import_from_word` (src/converter.py lines 236-314) over an explicit
filesystem model: `fs` is the set of existing file paths and `tables` the
parsed tables of the document at `wordPath`.  The missing-file check
precedes the directory creation; then the declared format is read, the rows
are scanned into per-basename line sequences, and each section is written to
both output trees. -/
def import_from_word (fs : List Cell) (tables : List (List Row))
    (wordPath engDir rusDir : Cell) (overwrite : Bool) (fuel : Nat) :
    ImportResult :=
  if fs.contains wordPath then
    let ext := extOf (detectFileFormat tables)
    let rusEnc := rusEncOf ext
    let items := (scanTables tables).data
    let res := importWriteLoop overwrite ext rusEnc engDir rusDir fuel
      items.length 1 fs items
    ⟨[engDir, rusDir], res.1, res.2.1, res.2.2⟩
  else ⟨[], [], [], some .notFound⟩

/-! ## Exporter (src/converter.py lines 76-152 and the pairing of 155-198) -/

/-- Filesystem model for the exporter: which paths exist, and the outcome of
`read_lines_auto` on a path — `none` models a non-decoding I/O error that
also fails the retry (decoding itself never fails, see `read_lines_core`);
the encoding selection is inside this abstraction. -/
structure FSModel where
  pexists : Cell → Bool
  readLines : Cell → Option (List Cell)

/-- `{os.path.basename(p): p for p in paths}` (src/converter.py lines
91-92): a dict from basename to path, last occurrence winning. -/
def buildMap (paths : List Cell) : List (Cell × Cell) :=
  paths.foldl (fun d p => dictSet d (basenameOf p) p) []

/-- The basenames present on both sides, in side-A first-insertion order
(src/converter.py line 116). -/
def pairedNames (engPaths rusPaths : List Cell) : List Cell :=
  (dictKeys (buildMap engPaths)).filter
    (fun n => (dictGet (buildMap rusPaths) n).isSome)

/-- Basenames with no partner, as warned about on lines 95-100. -/
def missingNames (fromPaths otherPaths : List Cell) : List Cell :=
  (dictKeys (buildMap fromPaths)).filter
    (fun n => (dictGet (buildMap otherPaths) n).isNone)

/-- The deduplicated set of lowercased extensions of the side-A paths
(src/converter.py line 103). -/
def extList (paths : List Cell) : List Cell :=
  (paths.map (fun p => pyLower (splitextOf p).2)).dedup

/-- The paired basenames together with their two paths, in processing
order. -/
def exportPairsList (engPaths rusPaths : List Cell) :
    List (Cell × Cell × Cell) :=
  (pairedNames engPaths rusPaths).map
    (fun n => (n, (dictGet (buildMap engPaths) n).getD [],
                  (dictGet (buildMap rusPaths) n).getD []))

/-- Errors `export_paths_to_word` can raise: `ValueError` for an empty input
list or a bad extension set, `FileNotFoundError` for a missing path, and a
propagated I/O error from reading a file mid-loop. -/
inductive ExpErr
  | noFiles
  | notFound (p : Cell)
  | badExt
  | readFail (p : Cell)
deriving DecidableEq

/-- Everything observable about one `export_paths_to_word` call: the two
logged missing-pair warnings, the progress callbacks issued, the document
saved at the output path (`none` when the call aborts before `doc.save`),
and the error raised, if any. -/
structure ExportResult where
  warnedMissingRus : List Cell
  warnedMissingEng : List Cell
  progressed : List (Nat × Nat)
  saved : Option (Cell × List Row)
  error : Option ExpErr
deriving DecidableEq

/-- The per-pair loop of `export_paths_to_word` (src/converter.py lines
118-149): read both files, append the section rows, report progress; a
failed read aborts the loop.  Returns the rows of all sections, the progress
calls, and the error, if any. -/
def exportLoop (fs : FSModel) (total : Nat) :
    Nat → List (Cell × Cell × Cell) →
    List Row × List (Nat × Nat) × Option ExpErr
  | _, [] => ([], [], none)
  | idx, (name, ep, rp) :: rest =>
    match fs.readLines ep with
    | none => ([], [], some (.readFail ep))
    | some engL =>
      match fs.readLines rp with
      | none => ([], [], some (.readFail rp))
      | some rusL =>
        let res := exportLoop fs total (idx + 1) rest
        (sectionRows name engL rusL ++ res.1, (idx, total) :: res.2.1, res.2.2)

/-- `export_paths_to_word` (src/converter.py lines 76-152): reject empty
input lists, then missing paths; log the pairing warnings; enforce one
supported extension over the side-A list; then build and save the document.
The document is saved only after the whole loop succeeds (line 151). -/
def export_paths_to_word (fs : FSModel) (engPaths rusPaths : List Cell)
    (outputPath : Cell) : ExportResult :=
  if engPaths = [] ∨ rusPaths = [] then ⟨[], [], [], none, some .noFiles⟩
  else
    match (engPaths ++ rusPaths).find? (fun p => !fs.pexists p) with
    | some p => ⟨[], [], [], none, some (.notFound p)⟩
    | none =>
      let missingRus := missingNames engPaths rusPaths
      let missingEng := missingNames rusPaths engPaths
      match extList engPaths with
      | [e] =>
        if e = S ".txt" ∨ e = S ".srt" then
          let fileExt := e.dropWhile (fun c => c = '.')
          let pairs := exportPairsList engPaths rusPaths
          let res := exportLoop fs pairs.length 1 pairs
          ⟨missingRus, missingEng, res.2.1,
           if res.2.2 = none then some (outputPath, headerRow fileExt :: res.1)
           else none,
           res.2.2⟩
        else ⟨missingRus, missingEng, [], none, some .badExt⟩
      | _ => ⟨missingRus, missingEng, [], none, some .badExt⟩

/-! ## Folder-mode pairing (src/converter.py lines 170-198)

In folder mode the directory listings are filtered to the chosen extension
(case-insensitively) on both sides, and pairing is computed on the filtered
sets, sorted. -/

/-- Lexicographic comparison of strings by code point, as Python `sorted`
uses. -/
def cellLE : Cell → Cell → Bool
  | [], _ => true
  | _ :: _, [] => false
  | c :: cs, d :: ds => if c = d then cellLE cs ds else decide (c < d)

/-- Insert into a sorted list. -/
def insertSorted (x : Cell) : List Cell → List Cell
  | [] => [x]
  | y :: ys => if cellLE x y then x :: y :: ys else y :: insertSorted x ys

/-- Sort a list of strings (Python's `sorted`). -/
def sortCells (l : List Cell) : List Cell := l.foldr insertSorted []

/-- `{f for f in files if f.lower().endswith(f".{ext}")}` (lines 178-179):
the filtered, deduplicated file set of one side. -/
def filesFiltered (files : List Cell) (ext : Cell) : List Cell :=
  (files.filter (fun f => endsWithS (pyLower f) ('.' :: ext))).dedup

/-- `sorted(eng_files & rus_files)` (line 196): the folder-mode paired
basenames. -/
def folderPaired (engFiles rusFiles : List Cell) (ext : Cell) : List Cell :=
  sortCells ((filesFiltered engFiles ext).filter
    (fun f => (filesFiltered rusFiles ext).contains f))

/-- `sorted(eng_files - rus_files)` (lines 182-183): the folder-mode
missing-pair warning list of one side. -/
def folderMissing (fromFiles otherFiles : List Cell) (ext : Cell) : List Cell :=
  sortCells ((filesFiltered fromFiles ext).filter
    (fun f => !(filesFiltered otherFiles ext).contains f))

/-- Folder-mode extension inference (src/converter.py lines 170-176): the
lowercased extensions of the side-A listing, kept only if in
{".txt", ".srt"}; exactly one must remain, and it is returned without its
dot. -/
def inferExt (engFiles : List Cell) : Option Cell :=
  match (extList engFiles).filter (fun e => e = S ".txt" ∨ e = S ".srt") with
  | [e] => some (e.dropWhile (fun c => c = '.'))
  | _ => none

/-! ## Basic lemmas about the string primitives -/

theorem startsWithS_append_self (p r : Cell) : startsWithS (p ++ r) p = true := by
  induction p with
  | nil => cases r <;> rfl
  | cons c cs ih => simp [startsWithS, ih]

theorem startsWithS_self (p : Cell) : startsWithS p p = true := by
  have h := startsWithS_append_self p []
  simpa using h

theorem startsWithS_nil (p : Cell) (hp : p ≠ []) : startsWithS [] p = false := by
  cases p with
  | nil => exact absurd rfl hp
  | cons c cs => rfl

theorem lstripWS_ne_of_space (c : Char) (l : Cell) (h : pyIsSpace c = true) :
    lstripWS (c :: l) = lstripWS l := by
  simp [lstripWS, List.dropWhile_cons, h]

theorem lstripWS_length_le (l : Cell) : (lstripWS l).length ≤ l.length := by
  induction l with
  | nil => simp [lstripWS]
  | cons c cs ih =>
    by_cases h : pyIsSpace c
    · rw [lstripWS_ne_of_space c cs h]
      exact Nat.le_trans ih (Nat.le_succ _)
    · simp [lstripWS, List.dropWhile_cons, h]

theorem lstripWS_fix_head (c : Char) (l : Cell)
    (h : lstripWS (c :: l) = c :: l) : pyIsSpace c = false := by
  by_contra hc
  have hsp : pyIsSpace c = true := by
    cases hx : pyIsSpace c
    · exact absurd hx hc
    · rfl
  rw [lstripWS_ne_of_space c l hsp] at h
  have := lstripWS_length_le l
  rw [h] at this
  simp at this

theorem dropWhile_append_cases (q : Char → Bool) (l₁ l₂ : List Char) :
    List.dropWhile q (l₁ ++ l₂) = List.dropWhile q l₂ ∨
    List.dropWhile q (l₁ ++ l₂) = List.dropWhile q l₁ ++ l₂ := by
  induction l₁ with
  | nil => left; rfl
  | cons c cs ih =>
    by_cases h : q c
    · simpa [List.dropWhile_cons, h] using ih
    · right; simp [List.dropWhile_cons, h]

/-- Stripping a string that begins with a whitespace-free, whitespace-ended
marker `p` keeps `p` as a prefix: the `startswith` tests of
`import_from_word` are insensitive to whatever follows the literal. -/
theorem startsWithS_pyStrip_append (p t : Cell) (hp : p ≠ [])
    (h1 : lstripWS p = p) (h2 : rstripWS p = p) :
    startsWithS (pyStrip (p ++ t)) p = true := by
  obtain ⟨c, p', rfl⟩ : ∃ c p', p = c :: p' := by
    cases p with
    | nil => exact absurd rfl hp
    | cons c p' => exact ⟨c, p', rfl⟩
  have hc : pyIsSpace c = false := lstripWS_fix_head c p' h1
  have hl : lstripWS ((c :: p') ++ t) = (c :: p') ++ t := by
    simp [lstripWS, List.dropWhile_cons, hc]
  unfold pyStrip
  rw [hl]
  unfold rstripWS
  rw [List.reverse_append]
  rcases dropWhile_append_cases pyIsSpace t.reverse (c :: p').reverse with h | h
  · rw [h]
    have h2' : List.dropWhile pyIsSpace (c :: p').reverse = (c :: p').reverse := by
      have := h2
      unfold rstripWS at this
      have := congrArg List.reverse this
      simpa using this
    rw [h2', List.reverse_reverse]
    exact startsWithS_self _
  · rw [h, List.reverse_append, List.reverse_reverse]
    exact startsWithS_append_self _ _

theorem pyStrip_nil : pyStrip [] = [] := rfl

/-! ## Dict lemmas -/

theorem dictGet_dictSet_self {α : Type} (d : List (Cell × α)) (k : Cell) (v : α) :
    dictGet (dictSet d k v) k = some v := by
  induction d with
  | nil => simp [dictGet, dictSet]
  | cons kv rest ih =>
    by_cases h : kv.1 = k
    · simp [dictGet, dictSet, h]
    · simp [dictGet, dictSet, h, ih]

theorem dictGet_dictSet_ne {α : Type} (d : List (Cell × α)) (k k' : Cell) (v : α)
    (h : k' ≠ k) : dictGet (dictSet d k v) k' = dictGet d k' := by
  induction d with
  | nil =>
    have hk : ¬ (k = k') := fun hh => h hh.symm
    simp only [dictSet, dictGet, if_neg hk]
  | cons kv rest ih =>
    obtain ⟨k1, v1⟩ := kv
    by_cases hk : k1 = k
    · subst hk
      have hne : ¬ (k1 = k') := fun hh => h hh.symm
      simp only [dictSet, if_pos rfl, dictGet, if_neg hne]
    · by_cases hk' : k1 = k'
      · simp only [dictSet, if_neg hk, dictGet, if_pos hk']
      · simp only [dictSet, if_neg hk, dictGet, if_neg hk', ih]

theorem dictSet_dictSet_self {α : Type} (d : List (Cell × α)) (k : Cell) (v w : α) :
    dictSet (dictSet d k v) k w = dictSet d k w := by
  induction d with
  | nil => simp [dictSet]
  | cons kv rest ih =>
    obtain ⟨k1, v1⟩ := kv
    by_cases h : k1 = k
    · simp [dictSet, h]
    · simp only [dictSet, if_neg h, ih]

theorem mem_dictKeys_dictSet {α : Type} (d : List (Cell × α)) (k k' : Cell) (v : α) :
    k' ∈ dictKeys (dictSet d k v) ↔ k' ∈ dictKeys d ∨ k' = k := by
  induction d with
  | nil => simp [dictKeys, dictSet]
  | cons kv rest ih =>
    obtain ⟨k1, v1⟩ := kv
    by_cases h : k1 = k
    · subst h
      simp only [dictSet, if_true]
      simp only [dictKeys, List.map_cons, List.mem_cons]
      tauto
    · simp only [dictSet, if_neg h, dictKeys, List.map_cons, List.mem_cons]
      have ih' : k' ∈ List.map (fun kv => kv.1) (dictSet rest k v) ↔
          k' ∈ List.map (fun kv => kv.1) rest ∨ k' = k := ih
      rw [ih']
      tauto

theorem dictGet_isSome_iff_mem {α : Type} (d : List (Cell × α)) (k : Cell) :
    (dictGet d k).isSome = true ↔ k ∈ dictKeys d := by
  induction d with
  | nil => simp [dictGet, dictKeys]
  | cons kv rest ih =>
    obtain ⟨k1, v1⟩ := kv
    by_cases h : k1 = k
    · subst h
      constructor
      · intro _
        show k1 ∈ k1 :: List.map (fun kv => kv.1) rest
        exact List.mem_cons_self _ _
      · intro _
        show (if k1 = k1 then some v1 else dictGet rest k1).isSome = true
        rw [if_pos rfl]
        rfl
    · simp only [dictGet, if_neg h, dictKeys, List.map_cons, List.mem_cons]
      have ih' : (dictGet rest k).isSome = true ↔
          k ∈ List.map (fun kv => kv.1) rest := ih
      rw [ih']
      constructor
      · exact Or.inr
      · intro hx
        rcases hx with hx | hx
        · exact absurd hx.symm h
        · exact hx

theorem dictKeys_nodup_dictSet {α : Type} (d : List (Cell × α)) (k : Cell) (v : α)
    (h : (dictKeys d).Nodup) : (dictKeys (dictSet d k v)).Nodup := by
  induction d with
  | nil => simp [dictKeys, dictSet]
  | cons kv rest ih =>
    obtain ⟨k1, v1⟩ := kv
    by_cases hk : k1 = k
    · subst hk
      simpa only [dictSet, if_pos rfl, dictKeys, List.map_cons] using h
    · simp only [dictKeys, List.map_cons, List.nodup_cons] at h
      simp only [dictSet, if_neg hk, dictKeys, List.map_cons, List.nodup_cons]
      refine ⟨?_, ih h.2⟩
      intro hmem
      have hmem' : k1 ∈ dictKeys (dictSet rest k v) := hmem
      rw [mem_dictKeys_dictSet] at hmem'
      rcases hmem' with hmem' | hmem'
      · exact h.1 hmem'
      · exact hk hmem'

theorem dictSet_eq_of_get {α : Type} (d : List (Cell × α)) (k : Cell) (v : α)
    (h : dictGet d k = some v) : dictSet d k v = d := by
  induction d with
  | nil => simp [dictGet] at h
  | cons kv rest ih =>
    obtain ⟨k1, v1⟩ := kv
    by_cases hk : k1 = k
    · simp only [dictGet, if_pos hk] at h
      cases h
      simp only [dictSet, if_pos hk]
    · simp only [dictGet, if_neg hk] at h
      simp only [dictSet, if_neg hk, ih h]

/-! ## Scan lemmas -/

theorem scanRowsAux_append (idx : Nat) (st : ScanState) (l₁ l₂ : List Row) :
    scanRowsAux idx st (l₁ ++ l₂) =
      scanRowsAux (idx + l₁.length) (scanRowsAux idx st l₁) l₂ := by
  induction l₁ generalizing idx st with
  | nil => simp [scanRowsAux]
  | cons r rs ih =>
    show scanRowsAux (idx + 1) (scanRow idx st r) (rs ++ l₂) = _
    rw [ih]
    have hlen : idx + 1 + rs.length = idx + (r :: rs).length := by
      simp [List.length_cons]
      omega
    rw [hlen]
    rfl

theorem marker_not_header (f : Cell) (h : startsWithS f markerMark = true) :
    startsWithS f headerMark = false := by
  cases f with
  | nil =>
    have hx : startsWithS ([] : Cell) markerMark = false := by decide
    rw [hx] at h
    cases h
  | cons c fs =>
    have hm : markerMark = 'Ф' :: S "айл:" := by decide
    have hh : headerMark = 'Т' :: S "ип файлов:" := by decide
    rw [hm] at h
    rw [hh]
    simp only [startsWithS, Bool.and_eq_true, decide_eq_true_eq] at h
    obtain ⟨hc, -⟩ := h
    subst hc
    simp [startsWithS]

/-- The marker branch of `scanRow` (src/converter.py lines 280-284). -/
theorem scanRow_marker (idx : Nat) (st : ScanState) (r : Row)
    (hm : startsWithS (pyStrip r.c0) markerMark = true) :
    scanRow idx st r =
      ⟨some (markerName (pyStrip r.c0)),
       dictSet st.data (markerName (pyStrip r.c0)) ([], [])⟩ := by
  have hh := marker_not_header _ hm
  simp only [scanRow, hh, Bool.and_false, Bool.false_eq_true, if_false, hm, if_true]

/-- The data branch of `scanRow` (src/converter.py lines 286-289) at a row
index other than 0, when a nonempty-basename section is open (the truthy
case of line 286) and, as the scan maintains, its key is present. -/
theorem scanRow_data (j : Nat) (st : ScanState) (r : Row) (n : Cell)
    (a b : List Cell)
    (hm : startsWithS (pyStrip r.c0) markerMark = false)
    (hcur : st.current = some n)
    (hne : n ≠ [])
    (hget : dictGet st.data n = some (a, b)) :
    scanRow (j + 1) st r =
      ⟨st.current, dictSet st.data n (a ++ [pyStrip r.c0], b ++ [pyStrip r.c1])⟩ := by
  have hj : (decide (j + 1 = 0)) = false := by simp
  simp only [scanRow, hj, Bool.false_and, Bool.false_eq_true, if_false, hm, hcur,
    if_neg hne, hget]

/-- The falsy case of line 286: a non-marker row under an empty-basename
section is discarded. -/
theorem scanRow_data_empty (j : Nat) (st : ScanState) (r : Row)
    (hm : startsWithS (pyStrip r.c0) markerMark = false)
    (hcur : st.current = some []) :
    scanRow (j + 1) st r = st := by
  have hj : (decide (j + 1 = 0)) = false := by simp
  simp only [scanRow, hj, Bool.false_and, Bool.false_eq_true, if_false, hm, hcur,
    if_pos rfl, if_true]

/-- A non-marker row is ignored while no section is open
(src/converter.py line 286: `if current_filename:`). -/
theorem scanRow_none (j : Nat) (st : ScanState) (r : Row)
    (hm : startsWithS (pyStrip r.c0) markerMark = false)
    (hcur : st.current = none) :
    scanRow (j + 1) st r = st := by
  have hj : (decide (j + 1 = 0)) = false := by simp
  simp only [scanRow, hj, Bool.false_and, Bool.false_eq_true, if_false, hm, hcur]

/-- Row 0 of a table is skipped when it is a header row
(src/converter.py lines 276-278). -/
theorem scanRow_header (st : ScanState) (r : Row)
    (hh : startsWithS (pyStrip r.c0) headerMark = true) :
    scanRow 0 st r = st := by
  simp [scanRow, hh]

/-- Scanning consecutive non-marker rows (at row indices ≥ 1) appends their
stripped cells to the open section, in order. -/
theorem scan_plain_rows (rows : List Row) :
    ∀ (j : Nat) (d : List (Cell × (List Cell × List Cell))) (n : Cell)
      (a b : List Cell),
      n ≠ [] →
      dictGet d n = some (a, b) →
      (∀ r ∈ rows, startsWithS (pyStrip r.c0) markerMark = false) →
      scanRowsAux (j + 1) ⟨some n, d⟩ rows =
        ⟨some n, dictSet d n (a ++ rows.map (fun r => pyStrip r.c0),
                              b ++ rows.map (fun r => pyStrip r.c1))⟩ := by
  induction rows with
  | nil =>
    intro j d n a b _ hd _
    show (⟨some n, d⟩ : ScanState) = _
    simp [dictSet_eq_of_get d n (a, b) hd]
  | cons r rs ih =>
    intro j d n a b hne hd hrows
    show scanRowsAux (j + 1 + 1) (scanRow (j + 1) ⟨some n, d⟩ r) rs = _
    rw [scanRow_data j ⟨some n, d⟩ r n a b (hrows r (List.mem_cons_self _ _)) rfl
      hne hd]
    rw [ih (j + 1) _ n (a ++ [pyStrip r.c0]) (b ++ [pyStrip r.c1]) hne
      (dictGet_dictSet_self _ _ _)
      (fun r' hr' => hrows r' (List.mem_cons_of_mem _ hr'))]
    rw [dictSet_dictSet_self]
    simp [List.append_assoc]

/-- Non-marker rows scanned while the open section has the empty basename
are all discarded (the falsy case of line 286). -/
theorem scan_plain_rows_empty (rows : List Row) :
    ∀ (j : Nat) (st : ScanState),
      st.current = some [] →
      (∀ r ∈ rows, startsWithS (pyStrip r.c0) markerMark = false) →
      scanRowsAux (j + 1) st rows = st := by
  induction rows with
  | nil =>
    intro j st _ _
    rfl
  | cons r rs ih =>
    intro j st hcur hrows
    show scanRowsAux (j + 1 + 1) (scanRow (j + 1) st r) rs = st
    rw [scanRow_data_empty j st r (hrows r (List.mem_cons_self _ _)) hcur]
    exact ih (j + 1) st hcur (fun r' hr' => hrows r' (List.mem_cons_of_mem _ hr'))

theorem markerRow_strip_starts (n : Cell) :
    startsWithS (pyStrip ((markerRow n).c0)) markerMark = true := by
  show startsWithS (pyStrip (markerMark ++ [' '] ++ n)) markerMark = true
  rw [List.append_assoc]
  exact startsWithS_pyStrip_append markerMark ([' '] ++ n) (by decide) (by decide) (by decide)

theorem headerRow_strip_starts (ext : Cell) :
    startsWithS (pyStrip ((headerRow ext).c0)) headerMark = true := by
  show startsWithS (pyStrip (headerMark ++ [' '] ++ ext)) headerMark = true
  rw [List.append_assoc]
  exact startsWithS_pyStrip_append headerMark ([' '] ++ ext) (by decide) (by decide) (by decide)

/-- Scanning one full section (at row indices ≥ 1) opens the recovered
basename, resets its entry, and fills it with the stripped data cells. -/
theorem scan_section (j : Nat) (st : ScanState) (n : Cell) (a b : List Cell)
    (hn : markerName (pyStrip ((markerRow n).c0)) = n)
    (hn0 : n ≠ [])
    (hl : ∀ r ∈ dataRows a b, startsWithS (pyStrip r.c0) markerMark = false) :
    scanRowsAux (j + 1) st (sectionRows n a b) =
      ⟨some n, dictSet st.data n
        ((dataRows a b).map (fun r => pyStrip r.c0),
         (dataRows a b).map (fun r => pyStrip r.c1))⟩ := by
  show scanRowsAux (j + 1 + 1) (scanRow (j + 1) st (markerRow n)) (dataRows a b) = _
  rw [scanRow_marker (j + 1) st (markerRow n) (markerRow_strip_starts n), hn]
  rw [scan_plain_rows (dataRows a b) (j + 1) _ n [] [] hn0
    (dictGet_dictSet_self _ _ _) hl]
  rw [dictSet_dictSet_self]
  simp

/-- The concatenated sections of the output document, in pairing order. -/
def sectionsOf (pairs : List (Cell × List Cell × List Cell)) : List Row :=
  (pairs.map (fun x => sectionRows x.1 x.2.1 x.2.2)).flatten

theorem exportTable_eq (ext : Cell) (pairs : List (Cell × List Cell × List Cell)) :
    exportTable ext pairs = headerRow ext :: sectionsOf pairs := rfl

theorem sectionsOf_cons (x : Cell × List Cell × List Cell)
    (rest : List (Cell × List Cell × List Cell)) :
    sectionsOf (x :: rest) = sectionRows x.1 x.2.1 x.2.2 ++ sectionsOf rest := by
  simp [sectionsOf]

set_option maxHeartbeats 1000000 in
/-- Scanning the sections of basenames all different from `n` does not
change the entry of `n`. -/
theorem scan_sections_preserve (pairs : List (Cell × List Cell × List Cell)) :
    ∀ (j : Nat) (st : ScanState) (n : Cell),
      (∀ x ∈ pairs, markerName (pyStrip ((markerRow x.1).c0)) = x.1) →
      (∀ x ∈ pairs, x.1 ≠ []) →
      (∀ x ∈ pairs, x.1 ≠ n) →
      (∀ x ∈ pairs, ∀ r ∈ dataRows x.2.1 x.2.2,
        startsWithS (pyStrip r.c0) markerMark = false) →
      dictGet (scanRowsAux (j + 1) st (sectionsOf pairs)).data n = dictGet st.data n := by
  induction pairs with
  | nil =>
    intro j st n _ _ _ _
    rfl
  | cons x rest ih =>
    intro j st n hnames hn0 hne hl
    obtain ⟨m, xa, xb⟩ := x
    rw [sectionsOf_cons]
    rw [scanRowsAux_append]
    rw [scan_section j st m xa xb (hnames _ (List.mem_cons_self _ _))
      (hn0 _ (List.mem_cons_self _ _))
      (hl _ (List.mem_cons_self _ _))]
    have hlen : j + 1 + (sectionRows m xa xb).length =
        (j + (sectionRows m xa xb).length) + 1 := by omega
    rw [hlen]
    rw [ih (j + (sectionRows m xa xb).length) _ n
      (fun x hx => hnames x (List.mem_cons_of_mem _ hx))
      (fun x hx => hn0 x (List.mem_cons_of_mem _ hx))
      (fun x hx => hne x (List.mem_cons_of_mem _ hx))
      (fun x hx => hl x (List.mem_cons_of_mem _ hx))]
    exact dictGet_dictSet_ne _ _ _ _ (Ne.symm (hne _ (List.mem_cons_self _ _)))

set_option maxHeartbeats 1000000 in
/-- Scanning all sections recovers, for each listed basename, exactly the
stripped data cells of its own section. -/
theorem scan_sections_lookup (pairs : List (Cell × List Cell × List Cell)) :
    ∀ (j : Nat) (st : ScanState) (n : Cell) (a b : List Cell),
      (n, a, b) ∈ pairs →
      (∀ x ∈ pairs, markerName (pyStrip ((markerRow x.1).c0)) = x.1) →
      (∀ x ∈ pairs, x.1 ≠ []) →
      (pairs.map (fun x => x.1)).Nodup →
      (∀ x ∈ pairs, ∀ r ∈ dataRows x.2.1 x.2.2,
        startsWithS (pyStrip r.c0) markerMark = false) →
      dictGet (scanRowsAux (j + 1) st (sectionsOf pairs)).data n =
        some ((dataRows a b).map (fun r => pyStrip r.c0),
              (dataRows a b).map (fun r => pyStrip r.c1)) := by
  induction pairs with
  | nil =>
    intro j st n a b hmem
    cases hmem
  | cons x rest ih =>
    intro j st n a b hmem hnames hn0 hnodup hl
    obtain ⟨m, xa, xb⟩ := x
    rw [sectionsOf_cons]
    rw [scanRowsAux_append]
    rw [scan_section j st m xa xb (hnames _ (List.mem_cons_self _ _))
      (hn0 _ (List.mem_cons_self _ _))
      (hl _ (List.mem_cons_self _ _))]
    have hlen : j + 1 + (sectionRows m xa xb).length =
        (j + (sectionRows m xa xb).length) + 1 := by omega
    rw [hlen]
    rw [List.map_cons, List.nodup_cons] at hnodup
    rcases List.mem_cons.1 hmem with heq | hmem'
    · cases heq
      rw [scan_sections_preserve rest _ _ n
        (fun x hx => hnames x (List.mem_cons_of_mem _ hx))
        (fun x hx => hn0 x (List.mem_cons_of_mem _ hx))
        (fun x hx hxn => hnodup.1 (hxn ▸ List.mem_map_of_mem (fun y => y.1) hx))
        (fun x hx => hl x (List.mem_cons_of_mem _ hx))]
      exact dictGet_dictSet_self _ _ _
    · exact ih _ _ n a b hmem'
        (fun x hx => hnames x (List.mem_cons_of_mem _ hx))
        (fun x hx => hn0 x (List.mem_cons_of_mem _ hx))
        hnodup.2
        (fun x hx => hl x (List.mem_cons_of_mem _ hx))

theorem dataRows_plain (xa xb : List Cell)
    (h : ∀ l ∈ xa, startsWithS (pyStrip l) markerMark = false) :
    ∀ r ∈ dataRows xa xb, startsWithS (pyStrip r.c0) markerMark = false := by
  intro r hr
  simp only [dataRows, List.mem_map, List.mem_range] at hr
  obtain ⟨i, -, rfl⟩ := hr
  show startsWithS (pyStrip (xa.getD i [])) markerMark = false
  by_cases hlt : i < xa.length
  · rw [List.getD_eq_getElem xa [] hlt]
    exact h _ (List.getElem_mem hlt)
  · rw [List.getD_eq_default xa [] (Nat.le_of_not_lt hlt)]
    decide

theorem dataRows_strip_c0 (a b : List Cell) :
    (dataRows a b).map (fun r => pyStrip r.c0) =
      (List.range (max a.length b.length)).map (fun i => pyStrip (a.getD i [])) := by
  simp [dataRows, List.map_map]

theorem dataRows_strip_c1 (a b : List Cell) :
    (dataRows a b).map (fun r => pyStrip r.c1) =
      (List.range (max a.length b.length)).map (fun i => pyStrip (b.getD i [])) := by
  simp [dataRows, List.map_map]

theorem getD_map_range (N i : Nat) (f : Nat → Cell) :
    ((List.range N).map f).getD i [] = if i < N then f i else [] := by
  by_cases h : i < N
  · rw [if_pos h]
    have hlen : i < ((List.range N).map f).length := by simp [h]
    rw [List.getD_eq_getElem _ [] hlen]
    simp
  · rw [if_neg h]
    exact List.getD_eq_default _ [] (by simp [Nat.le_of_not_lt h])

/-- Scanning the exported table of well-behaved pairs recovers each pair's
padded, stripped lines. -/
theorem scan_exportTable (ext : Cell) (pairs : List (Cell × List Cell × List Cell))
    (hnames : ∀ x ∈ pairs, markerName (pyStrip ((markerRow x.1).c0)) = x.1)
    (hn0 : ∀ x ∈ pairs, x.1 ≠ [])
    (hnodup : (pairs.map (fun x => x.1)).Nodup)
    (hlines : ∀ x ∈ pairs, ∀ l ∈ x.2.1, startsWithS (pyStrip l) markerMark = false)
    (n : Cell) (a b : List Cell) (hmem : (n, a, b) ∈ pairs) :
    dictGet (scanTables [exportTable ext pairs]).data n =
      some ((List.range (max a.length b.length)).map (fun i => pyStrip (a.getD i [])),
            (List.range (max a.length b.length)).map (fun i => pyStrip (b.getD i []))) := by
  have h1 : scanTables [exportTable ext pairs] =
      scanRowsAux 0 ⟨none, []⟩ (headerRow ext :: sectionsOf pairs) := rfl
  rw [h1]
  have h2 : scanRowsAux 0 ⟨none, []⟩ (headerRow ext :: sectionsOf pairs) =
      scanRowsAux 1 (scanRow 0 ⟨none, []⟩ (headerRow ext)) (sectionsOf pairs) := rfl
  rw [h2, scanRow_header _ _ (headerRow_strip_starts ext)]
  rw [show (1 : Nat) = 0 + 1 from rfl]
  rw [scan_sections_lookup pairs 0 ⟨none, []⟩ n a b hmem hnames hn0 hnodup
    (fun x hx => dataRows_plain x.2.1 x.2.2 (hlines x hx))]
  rw [dataRows_strip_c0, dataRows_strip_c1]


/-! ## Claim C1 -/

/-- C1 (amended): for basename-matched pairs whose basenames are nonempty,
pairwise distinct and recovered intact from their marker rows, and whose
side-A lines never strip (with Python's full whitespace set) to text
starting with the marker literal "Файл:", exporting the pairs and then
importing the document reproduces, for each basename, exactly
max(n_a, n_b) lines on each side, and every line at an index at or beyond
the original side's length is the empty string (zero-padding is preserved by
the round trip). -/
theorem C1_export_import_roundtrip (ext : Cell)
    (pairs : List (Cell × List Cell × List Cell))
    (hnames : ∀ x ∈ pairs, markerName (pyStrip ((markerRow x.1).c0)) = x.1)
    (hn0 : ∀ x ∈ pairs, x.1 ≠ [])
    (hnodup : (pairs.map (fun x => x.1)).Nodup)
    (hlines : ∀ x ∈ pairs, ∀ l ∈ x.2.1, startsWithS (pyStrip l) markerMark = false)
    (n : Cell) (a b : List Cell) (hmem : (n, a, b) ∈ pairs) :
    ∃ ra rb,
      dictGet (scanTables [exportTable ext pairs]).data n = some (ra, rb) ∧
      ra.length = max a.length b.length ∧
      rb.length = max a.length b.length ∧
      (∀ i, a.length ≤ i → ra.getD i [] = []) ∧
      (∀ i, b.length ≤ i → rb.getD i [] = []) := by
  refine ⟨_, _, scan_exportTable ext pairs hnames hn0 hnodup hlines n a b hmem,
    ?_, ?_, ?_, ?_⟩
  · simp
  · simp
  · intro i hi
    rw [getD_map_range]
    by_cases h : i < max a.length b.length
    · rw [if_pos h, List.getD_eq_default a [] hi]
      rfl
    · rw [if_neg h]
  · intro i hi
    rw [getD_map_range]
    by_cases h : i < max a.length b.length
    · rw [if_pos h, List.getD_eq_default b [] hi]
      rfl
    · rw [if_neg h]

/-- Witness for C1: the spec's own example, `greeting.txt` with side-A
["Hello", "World"] and side-B ["Привет"], round-trips to two lines per side
with the padded side-B second line empty. -/
theorem C1_export_import_roundtrip_witness :
    ∃ ra rb,
      dictGet (scanTables [exportTable (S "txt")
        [(S "greeting.txt", [S "Hello", S "World"], [S "Привет"])]]).data
        (S "greeting.txt") = some (ra, rb) ∧
      ra.length = max 2 1 ∧
      rb.length = max 2 1 ∧
      rb.getD 1 [] = [] := by
  obtain ⟨ra, rb, h1, h2, h3, -, h5⟩ :=
    C1_export_import_roundtrip (S "txt")
      [(S "greeting.txt", [S "Hello", S "World"], [S "Привет"])]
      (by decide) (by decide) (by decide) (by decide)
      (S "greeting.txt") [S "Hello", S "World"] [S "Привет"] (by decide)
  exact ⟨ra, rb, h1, h2, h3, h5 1 (by decide)⟩

/-- Counterexample to C1 as stated: a side-A line that reads "Файл: b" is
misparsed as a new marker row on import, so the basename `a.txt`, which has
1 = max(1, 1) line on each side, is recovered with 0 lines on each side. -/
theorem C1_counterexample :
    ∃ ra rb,
      dictGet (scanTables [exportTable (S "txt")
        [(S "a.txt", [S "Файл: b"], [S "y"])]]).data (S "a.txt")
        = some (ra, rb) ∧
      ra.length ≠ max 1 1 ∧ rb.length ≠ max 1 1 :=
  ⟨[], [], by decide, by decide, by decide⟩


/-! ## Row-level preservation lemmas (for claim C10) -/

/-- One scan step neither touches the entry of `n` nor opens `n` while the
open section is not `n` and the row is not a marker recovering `n`. -/
theorem scanRow_preserve_entry (idx : Nat) (st : ScanState) (r : Row) (n : Cell)
    (hcur : st.current ≠ some n)
    (hmk : startsWithS (pyStrip r.c0) markerMark = true →
      markerName (pyStrip r.c0) ≠ n) :
    dictGet (scanRow idx st r).data n = dictGet st.data n ∧
    (scanRow idx st r).current ≠ some n := by
  simp only [scanRow]
  split
  · exact ⟨rfl, hcur⟩
  · split
    · next hm =>
      have hne := hmk hm
      refine ⟨dictGet_dictSet_ne _ _ _ _ (Ne.symm hne), ?_⟩
      intro heq
      exact hne (Option.some.injEq _ _ ▸ heq ▸ rfl)
    · next hm =>
      split
      · next m hcm =>
        split
        · exact ⟨rfl, hcur⟩
        · split
          · next ab hab =>
            have hmn : m ≠ n := by
              intro heq
              exact hcur (by rw [hcm, heq])
            exact ⟨dictGet_dictSet_ne _ _ _ _ (Ne.symm hmn), by
              show st.current ≠ some n
              exact hcur⟩
          · exact ⟨rfl, hcur⟩
      · exact ⟨rfl, hcur⟩

/-- Scanning any rows none of which is a marker recovering `n` preserves the
entry of `n`, provided `n` is not the open section. -/
theorem scan_rows_preserve_entry (rows : List Row) :
    ∀ (idx : Nat) (st : ScanState) (n : Cell),
      st.current ≠ some n →
      (∀ r ∈ rows, startsWithS (pyStrip r.c0) markerMark = true →
        markerName (pyStrip r.c0) ≠ n) →
      dictGet (scanRowsAux idx st rows).data n = dictGet st.data n := by
  induction rows with
  | nil =>
    intro idx st n _ _
    rfl
  | cons r rs ih =>
    intro idx st n hcur hmk
    obtain ⟨h1, h2⟩ := scanRow_preserve_entry idx st r n hcur
      (hmk r (List.mem_cons_self _ _))
    show dictGet (scanRowsAux (idx + 1) (scanRow idx st r) rs).data n = _
    rw [ih (idx + 1) _ n h2 (fun r' hr' => hmk r' (List.mem_cons_of_mem _ hr'))]
    exact h1

/-- Rows scanned while no section is open and no marker appears are all
discarded (src/converter.py line 286: data rows before any marker). -/
theorem scan_rows_none (rows : List Row) :
    ∀ (idx : Nat) (st : ScanState),
      st.current = none →
      (∀ r ∈ rows, startsWithS (pyStrip r.c0) markerMark = false) →
      scanRowsAux idx st rows = st := by
  induction rows with
  | nil =>
    intro idx st _ _
    rfl
  | cons r rs ih =>
    intro idx st hcur hmk
    have hstep : scanRow idx st r = st := by
      simp only [scanRow]
      split
      · rfl
      · split
        · next hm =>
          rw [hmk r (List.mem_cons_self _ _)] at hm
          cases hm
        · next =>
          split
          · next m hcm =>
            rw [hcur] at hcm
            cases hcm
          · rfl
    show scanRowsAux (idx + 1) (scanRow idx st r) rs = st
    rw [hstep]
    exact ih (idx + 1) st hcur (fun r' hr' => hmk r' (List.mem_cons_of_mem _ hr'))


/-! ## Claim C10 -/

theorem scanRowsAux_cons (idx : Nat) (st : ScanState) (r : Row) (rs : List Row) :
    scanRowsAux idx st (r :: rs) = scanRowsAux (idx + 1) (scanRow idx st r) rs := rfl

/-- C10: when a document carries a second marker row recovering an already
seen nonempty basename `n`, the scan resets that basename's accumulated
sequences at the second marker, so the recovered lines for `n` are exactly
the stripped data rows between the last such marker and the next marker (or
the end): everything accumulated earlier for `n` (inside `pre`) is silently
discarded.  Data rows appearing before any marker row are likewise
discarded, and data rows following a marker whose recovered basename is
empty are also discarded, leaving the scan state exactly as it was after
that marker (the falsy case of `if current_filename:`,
src/converter.py line 286). -/
theorem C10_last_marker_wins (pre : List Row) (mr : Row) (drs post : List Row)
    (n : Cell)
    (hnne : n ≠ [])
    (hmr : startsWithS (pyStrip mr.c0) markerMark = true)
    (hname : markerName (pyStrip mr.c0) = n)
    (hdrs : ∀ r ∈ drs, startsWithS (pyStrip r.c0) markerMark = false)
    (hpost : post = [] ∨
      ∃ r rest, post = r :: rest ∧ startsWithS (pyStrip r.c0) markerMark = true)
    (hpostn : ∀ r ∈ post, startsWithS (pyStrip r.c0) markerMark = true →
      markerName (pyStrip r.c0) ≠ n) :
    dictGet (scanRowsAux 0 ⟨none, []⟩ (pre ++ mr :: (drs ++ post))).data n =
      some (drs.map (fun r => pyStrip r.c0), drs.map (fun r => pyStrip r.c1)) ∧
    (∀ rows : List Row,
      (∀ r ∈ rows, startsWithS (pyStrip r.c0) markerMark = false) →
      (scanRowsAux 0 ⟨none, []⟩ rows).data = []) ∧
    (∀ (pre2 : List Row) (mr2 : Row) (drs2 : List Row),
      startsWithS (pyStrip mr2.c0) markerMark = true →
      markerName (pyStrip mr2.c0) = [] →
      (∀ r ∈ drs2, startsWithS (pyStrip r.c0) markerMark = false) →
      scanRowsAux 0 ⟨none, []⟩ (pre2 ++ mr2 :: drs2) =
        scanRowsAux 0 ⟨none, []⟩ (pre2 ++ [mr2])) := by
  refine ⟨?_, ?_, ?_⟩
  · rw [scanRowsAux_append, scanRowsAux_cons, scanRow_marker _ _ _ hmr, hname]
    rw [scanRowsAux_append]
    rw [scan_plain_rows drs (0 + pre.length) _ n [] [] hnne
      (dictGet_dictSet_self _ _ _) hdrs]
    rw [dictSet_dictSet_self]
    simp only [List.nil_append]
    rcases hpost with rfl | ⟨r, rest, rfl, hrm⟩
    · exact dictGet_dictSet_self _ _ _
    · rw [scanRowsAux_cons, scanRow_marker _ _ _ hrm]
      have hmn : markerName (pyStrip r.c0) ≠ n :=
        hpostn r (List.mem_cons_self _ _) hrm
      rw [scan_rows_preserve_entry rest _ _ n
        (fun heq => hmn (Option.some.inj heq))
        (fun r' hr' => hpostn r' (List.mem_cons_of_mem _ hr'))]
      rw [dictGet_dictSet_ne _ _ _ _ (Ne.symm hmn)]
      exact dictGet_dictSet_self _ _ _
  · intro rows hrows
    rw [scan_rows_none rows 0 ⟨none, []⟩ rfl hrows]
  · intro pre2 mr2 drs2 hm2 hname2 hdrs2
    rw [scanRowsAux_append, scanRowsAux_append, scanRowsAux_cons, scanRowsAux_cons]
    rw [scanRow_marker _ _ _ hm2, hname2]
    exact scan_plain_rows_empty drs2 (0 + pre2.length) _ rfl hdrs2

/-- Witness for C10: a document declaring txt whose basename `dup.txt`
appears in two marker rows; only the data row after the second marker
survives, a lone data row with no preceding marker writes nothing, and a
data row after a bare `Файл:` marker (empty basename) is discarded. -/
theorem C10_last_marker_wins_witness :
    dictGet (scanRowsAux 0 ⟨none, []⟩
      ([headerRow (S "txt"), markerRow (S "dup.txt"), ⟨S "old", S "x"⟩] ++
        markerRow (S "dup.txt") :: ([⟨S "new", S "y"⟩] ++ []))).data (S "dup.txt") =
      some ([S "new"], [S "y"]) ∧
    (scanRowsAux 0 ⟨none, []⟩ [⟨S "zz", S "ww"⟩]).data = [] ∧
    scanRowsAux 0 ⟨none, []⟩
        ([headerRow (S "txt")] ++ markerRow (S "") :: [⟨S "zz2", S "ww2"⟩]) =
      scanRowsAux 0 ⟨none, []⟩ ([headerRow (S "txt")] ++ [markerRow (S "")]) := by
  obtain ⟨h1, h2, h3⟩ := C10_last_marker_wins
    [headerRow (S "txt"), markerRow (S "dup.txt"), ⟨S "old", S "x"⟩]
    (markerRow (S "dup.txt")) [⟨S "new", S "y"⟩] [] (S "dup.txt")
    (by decide) (by decide) (by decide) (by decide) (Or.inl rfl) (by decide)
  refine ⟨h1.trans (by decide), h2 [⟨S "zz", S "ww"⟩] (by decide),
    h3 [headerRow (S "txt")] (markerRow (S "")) [⟨S "zz2", S "ww2"⟩]
      (by decide) (by decide) (by decide)⟩


/-! ## Idempotence and edge characterization of the strip primitives -/

theorem dropWhile_dropWhile_self (p : Char → Bool) (l : List Char) :
    List.dropWhile p (List.dropWhile p l) = List.dropWhile p l := by
  induction l with
  | nil => rfl
  | cons c cs ih =>
    by_cases h : p c
    · simp [List.dropWhile_cons, h, ih]
    · simp [List.dropWhile_cons, h]

theorem head?_dropWhile (p : Char → Bool) (l : List Char) (c : Char)
    (h : (List.dropWhile p l).head? = some c) : p c = false := by
  induction l with
  | nil => cases h
  | cons d ds ih =>
    by_cases hd : p d
    · rw [List.dropWhile_cons, if_pos hd] at h
      exact ih h
    · rw [List.dropWhile_cons, if_neg hd] at h
      cases h
      cases hp : p c
      · rfl
      · exact absurd hp hd

theorem rstripWS_exists_append (l : Cell) :
    ∃ t, l = rstripWS l ++ t ∧ ∀ c ∈ t, pyIsSpace c = true := by
  refine ⟨(List.takeWhile pyIsSpace l.reverse).reverse, ?_, ?_⟩
  · have h := List.takeWhile_append_dropWhile pyIsSpace l.reverse
    have h2 := congrArg List.reverse h
    rw [List.reverse_append, List.reverse_reverse] at h2
    exact h2.symm
  · intro c hc
    rw [List.mem_reverse] at hc
    exact List.mem_takeWhile_imp hc

theorem rstripWS_rstripWS (l : Cell) : rstripWS (rstripWS l) = rstripWS l := by
  unfold rstripWS
  rw [List.reverse_reverse, dropWhile_dropWhile_self]

theorem head?_append_left {α : Type} (xs ys : List α) (c : α)
    (h : xs.head? = some c) : (xs ++ ys).head? = some c := by
  cases xs with
  | nil => cases h
  | cons d ds => exact h

theorem lstripWS_rstripWS_lstripWS (l : Cell) :
    lstripWS (rstripWS (lstripWS l)) = rstripWS (lstripWS l) := by
  cases hu : rstripWS (lstripWS l) with
  | nil => rfl
  | cons c cs =>
    have hc : pyIsSpace c = false := by
      obtain ⟨t, ht, -⟩ := rstripWS_exists_append (lstripWS l)
      have hh : (lstripWS l).head? = some c := by
        rw [ht, hu]
        exact head?_append_left _ _ _ rfl
      exact head?_dropWhile pyIsSpace l c hh
    show List.dropWhile pyIsSpace (c :: cs) = c :: cs
    rw [List.dropWhile_cons, if_neg (by simp [hc])]

theorem pyStrip_idem (l : Cell) : pyStrip (pyStrip l) = pyStrip l := by
  show rstripWS (lstripWS (rstripWS (lstripWS l))) = rstripWS (lstripWS l)
  rw [lstripWS_rstripWS_lstripWS, rstripWS_rstripWS]

theorem pyStrip_head_not_space (l : Cell) (c : Char)
    (h : (pyStrip l).head? = some c) : pyIsSpace c = false := by
  obtain ⟨t, ht, -⟩ := rstripWS_exists_append (lstripWS l)
  have hh : (lstripWS l).head? = some c := by
    rw [ht]
    cases hz : (pyStrip l) with
    | nil =>
      rw [hz] at h
      cases h
    | cons d ds =>
      rw [hz] at h
      cases h
      have hz' : rstripWS (lstripWS l) = c :: ds := hz
      rw [hz']
      exact head?_append_left _ _ _ rfl
  exact head?_dropWhile pyIsSpace l c hh

theorem pyStrip_last_not_space (l : Cell) (c : Char)
    (h : (pyStrip l).getLast? = some c) : pyIsSpace c = false := by
  have h2 : (List.dropWhile pyIsSpace (lstripWS l).reverse).head? = some c := by
    have := List.getLast?_reverse (List.dropWhile pyIsSpace (lstripWS l).reverse)
    rw [← this]
    exact h
  exact head?_dropWhile pyIsSpace (lstripWS l).reverse c h2


/-! ## Claim C4 -/

/-- One scan step preserves any per-column predicate on accumulated lines,
because each appended line is a stripped cell of the scanned row. -/
theorem scanRow_values_inv (QA QB : Cell → Prop) (idx : Nat) (st : ScanState)
    (r : Row)
    (hqa : QA (pyStrip r.c0)) (hqb : QB (pyStrip r.c1))
    (hst : ∀ n a b, dictGet st.data n = some (a, b) →
      (∀ l ∈ a, QA l) ∧ (∀ l ∈ b, QB l)) :
    ∀ n a b, dictGet (scanRow idx st r).data n = some (a, b) →
      (∀ l ∈ a, QA l) ∧ (∀ l ∈ b, QB l) := by
  intro n a b
  simp only [scanRow]
  split
  · exact hst n a b
  · split
    · next hm =>
      intro hget
      by_cases hn : markerName (pyStrip r.c0) = n
      · rw [← hn, dictGet_dictSet_self] at hget
        cases hget
        exact ⟨fun l hl => absurd hl (List.not_mem_nil l),
               fun l hl => absurd hl (List.not_mem_nil l)⟩
      · rw [dictGet_dictSet_ne _ _ _ _ (fun heq => hn heq.symm)] at hget
        exact hst n a b hget
    · next =>
      split
      · next m hcm =>
        split
        · exact hst n a b
        · split
          · next ab hab =>
            intro hget
            by_cases hn : m = n
            · subst hn
              rw [dictGet_dictSet_self] at hget
              cases hget
              obtain ⟨ha, hb⟩ := hst m ab.1 ab.2 hab
              constructor
              · intro l hl
                rcases List.mem_append.1 hl with hl | hl
                · exact ha l hl
                · rw [List.mem_singleton.1 hl]
                  exact hqa
              · intro l hl
                rcases List.mem_append.1 hl with hl | hl
                · exact hb l hl
                · rw [List.mem_singleton.1 hl]
                  exact hqb
            · rw [dictGet_dictSet_ne _ _ _ _ (fun heq => hn heq.symm)] at hget
              exact hst n a b hget
          · exact hst n a b
      · exact hst n a b

theorem scan_rows_values_inv (QA QB : Cell → Prop) (rows : List Row) :
    ∀ (idx : Nat) (st : ScanState),
      (∀ r ∈ rows, QA (pyStrip r.c0) ∧ QB (pyStrip r.c1)) →
      (∀ n a b, dictGet st.data n = some (a, b) →
        (∀ l ∈ a, QA l) ∧ (∀ l ∈ b, QB l)) →
      ∀ n a b, dictGet (scanRowsAux idx st rows).data n = some (a, b) →
        (∀ l ∈ a, QA l) ∧ (∀ l ∈ b, QB l) := by
  induction rows with
  | nil =>
    intro idx st _ hst
    exact hst
  | cons r rs ih =>
    intro idx st hr hst
    exact ih (idx + 1) (scanRow idx st r)
      (fun r' hr' => hr r' (List.mem_cons_of_mem _ hr'))
      (scanRow_values_inv QA QB idx st r
        (hr r (List.mem_cons_self _ _)).1 (hr r (List.mem_cons_self _ _)).2 hst)

theorem scanTables_values_inv (QA QB : Cell → Prop) (tables : List (List Row))
    (hr : ∀ t ∈ tables, ∀ r ∈ t, QA (pyStrip r.c0) ∧ QB (pyStrip r.c1)) :
    ∀ n a b, dictGet (scanTables tables).data n = some (a, b) →
      (∀ l ∈ a, QA l) ∧ (∀ l ∈ b, QB l) := by
  suffices h : ∀ (ts : List (List Row)) (st : ScanState),
      (∀ t ∈ ts, ∀ r ∈ t, QA (pyStrip r.c0) ∧ QB (pyStrip r.c1)) →
      (∀ n a b, dictGet st.data n = some (a, b) →
        (∀ l ∈ a, QA l) ∧ (∀ l ∈ b, QB l)) →
      ∀ n a b, dictGet (ts.foldl scanTable st).data n = some (a, b) →
        (∀ l ∈ a, QA l) ∧ (∀ l ∈ b, QB l) by
    refine h tables ⟨none, []⟩ hr ?_
    intro n a b hget
    cases hget
  intro ts
  induction ts with
  | nil =>
    intro st _ hst
    exact hst
  | cons t rest ih =>
    intro st hts hst
    exact ih (scanTable st t)
      (fun t' ht' => hts t' (List.mem_cons_of_mem _ ht'))
      (scan_rows_values_inv QA QB t 0 st
        (hts t (List.mem_cons_self _ _)) hst)

/-- C4: every line recovered by the import scan is the whitespace-stripped
text of some table cell of its own column; in particular it is a strip
fixed point, so no recovered line (hence no line written by import) begins
or ends with a space or tab; and cell content with preserved leading or
trailing spaces is not recovered verbatim, as the concrete document in the
last conjunct shows. -/
theorem C4_import_strips_cells (tables : List (List Row)) (n : Cell)
    (a b : List Cell)
    (h : dictGet (scanTables tables).data n = some (a, b)) :
    (∀ l ∈ a, pyStrip l = l ∧ ∃ t ∈ tables, ∃ r ∈ t, l = pyStrip r.c0) ∧
    (∀ l ∈ b, pyStrip l = l ∧ ∃ t ∈ tables, ∃ r ∈ t, l = pyStrip r.c1) ∧
    (∀ l ∈ a ++ b,
      (∀ c, l.head? = some c → c ≠ ' ' ∧ c ≠ '\t') ∧
      (∀ c, l.getLast? = some c → c ≠ ' ' ∧ c ≠ '\t')) ∧
    dictGet (scanTables
      [[headerRow (S "txt"), markerRow (S "a"), ⟨S "  x", S "y "⟩]]).data (S "a")
      = some ([S "x"], [S "y"]) := by
  have hinv := scanTables_values_inv
    (fun l => pyStrip l = l ∧ ∃ t ∈ tables, ∃ r ∈ t, l = pyStrip r.c0)
    (fun l => pyStrip l = l ∧ ∃ t ∈ tables, ∃ r ∈ t, l = pyStrip r.c1)
    tables
    (fun t ht r hr =>
      ⟨⟨pyStrip_idem r.c0, t, ht, r, hr, rfl⟩,
       ⟨pyStrip_idem r.c1, t, ht, r, hr, rfl⟩⟩)
    n a b h
  have hedge : ∀ l : Cell, pyStrip l = l →
      (∀ c, l.head? = some c → c ≠ ' ' ∧ c ≠ '\t') ∧
      (∀ c, l.getLast? = some c → c ≠ ' ' ∧ c ≠ '\t') := by
    intro l hfix
    constructor
    · intro c hc
      have hs : pyIsSpace c = false :=
        pyStrip_head_not_space l c (by rw [hfix]; exact hc)
      exact ⟨fun heq => absurd (heq ▸ hs) (by decide),
             fun heq => absurd (heq ▸ hs) (by decide)⟩
    · intro c hc
      have hs : pyIsSpace c = false :=
        pyStrip_last_not_space l c (by rw [hfix]; exact hc)
      exact ⟨fun heq => absurd (heq ▸ hs) (by decide),
             fun heq => absurd (heq ▸ hs) (by decide)⟩
  refine ⟨hinv.1, hinv.2, ?_, by decide⟩
  intro l hl
  rcases List.mem_append.1 hl with hl | hl
  · exact hedge l (hinv.1 l hl).1
  · exact hedge l (hinv.2 l hl).1

/-- Witness for C4: in a concrete document with a cell "  x" carrying
preserved leading spaces, the recovered line is the stripped "x". -/
theorem C4_import_strips_cells_witness :
    pyStrip (S "x") = S "x" ∧
    dictGet (scanTables
      [[headerRow (S "txt"), markerRow (S "a"), ⟨S "  x", S "y "⟩]]).data (S "a")
      = some ([S "x"], [S "y"]) := by
  obtain ⟨h1, -, -, h4⟩ := C4_import_strips_cells
    [[headerRow (S "txt"), markerRow (S "a"), ⟨S "  x", S "y "⟩]]
    (S "a") [S "x"] [S "y"] (by decide)
  exact ⟨(h1 (S "x") (by decide)).1, h4⟩


/-! ## Claim C5 -/

theorem rusEncOf_extOf (fmt : Cell) :
    rusEncOf (extOf fmt) =
      (if fmt = S "srt" then S "utf-8" else S "cp1251") := by
  unfold extOf rusEncOf
  by_cases h : fmt = S "srt"
  · rw [if_pos h, if_pos rfl, if_pos h]
  · rw [if_neg h, if_neg h, if_neg (by decide : ¬ (S "txt" = S "srt"))]

/-- Every write pair produced by the import write loop uses UTF-8 on side A
and the given encoding on side B (src/converter.py lines 305-308). -/
theorem importWriteLoop_encodings (overwrite : Bool)
    (ext rusEnc engDir rusDir : Cell) (fuel total : Nat)
    (items : List (Cell × (List Cell × List Cell))) :
    ∀ (i : Nat) (exist : List Cell) (wa wb : WriteEff),
      (wa, wb) ∈ (importWriteLoop overwrite ext rusEnc engDir rusDir fuel total
        i exist items).1 →
      wa.enc = S "utf-8" ∧ wb.enc = rusEnc := by
  induction items with
  | nil =>
    intro i exist wa wb hmem
    cases hmem
  | cons item rest ih =>
    intro i exist wa wb hmem
    obtain ⟨name, ab⟩ := item
    simp only [importWriteLoop] at hmem
    split at hmem
    · next ep2 rp2 heq1 heq2 =>
      rcases List.mem_cons.1 hmem with heq | hmem'
      · cases heq
        exact ⟨rfl, rfl⟩
      · exact ih _ _ wa wb hmem'
    · cases hmem

/-- C5: side-A files are always written as UTF-8; side-B files are written
as UTF-8 exactly when the declared file type is "srt" and as cp1251 for any
other declared type; a document with no tables, or whose tables declare
nothing, defaults to "txt". -/
theorem C5_output_encodings (fs : List Cell) (tables : List (List Row))
    (wordPath engDir rusDir : Cell) (overwrite : Bool) (fuel : Nat) :
    (∀ wa wb, (wa, wb) ∈
        (import_from_word fs tables wordPath engDir rusDir overwrite fuel).writes →
      wa.enc = S "utf-8" ∧
      wb.enc = (if detectFileFormat tables = S "srt" then S "utf-8" else S "cp1251")) ∧
    detectFileFormat [] = S "txt" ∧
    ((∀ t ∈ tables, tableDeclares t = none) → detectFileFormat tables = S "txt") := by
  refine ⟨?_, rfl, ?_⟩
  · intro wa wb hmem
    rw [← rusEncOf_extOf]
    unfold import_from_word at hmem
    split at hmem
    · exact importWriteLoop_encodings _ _ _ _ _ _ _ _ _ _ wa wb hmem
    · cases hmem
  · intro hnone
    induction tables with
    | nil => rfl
    | cons t rest ih =>
      show (match tableDeclares t with
        | some f => f
        | none => detectFileFormat rest) = S "txt"
      rw [hnone t (List.mem_cons_self _ _)]
      exact ih (fun t' ht' => hnone t' (List.mem_cons_of_mem _ ht'))

/-- Witness for C5: a concrete document declaring "srt" has its side-B file
written as UTF-8. -/
theorem C5_output_encodings_witness :
    (⟨S "e/a.srt", S "x", S "utf-8"⟩ : WriteEff).enc = S "utf-8" ∧
    (⟨S "r/a.srt", S "y", S "utf-8"⟩ : WriteEff).enc =
      (if detectFileFormat [[headerRow (S "srt"), markerRow (S "a"), ⟨S "x", S "y"⟩]]
          = S "srt"
       then S "utf-8" else S "cp1251") :=
  (C5_output_encodings [S "w"]
    [[headerRow (S "srt"), markerRow (S "a"), ⟨S "x", S "y"⟩]]
    (S "w") (S "e") (S "r") false 5).1
    ⟨S "e/a.srt", S "x", S "utf-8"⟩ ⟨S "r/a.srt", S "y", S "utf-8"⟩ (by decide)


/-! ## Claim C6 -/

theorem not_mem_of_contains_false (l : List Cell) (q : Cell)
    (h : l.contains q = false) : q ∉ l := by
  intro hmem
  rw [show l.contains q = l.elem q from rfl, List.elem_eq_mem] at h
  exact absurd hmem (by simpa using h)

/-- The `while True` search of `_unique_path` returns a free path of the
shape `base_k ext`, every earlier candidate being occupied. -/
theorem uniquePathAux_spec (ex : Cell → Bool) (base ext : Cell) :
    ∀ (fuel i : Nat) (q : Cell), uniquePathAux ex base ext fuel i = some q →
      ex q = false ∧
      ∃ k, i ≤ k ∧ q = uniqueCandidate base ext k ∧
        ∀ j, i ≤ j → j < k → ex (uniqueCandidate base ext j) = true := by
  intro fuel
  induction fuel with
  | zero =>
    intro i q h
    cases h
  | succ fl ih =>
    intro i q h
    simp only [uniquePathAux] at h
    by_cases hex : ex (uniqueCandidate base ext i) = true
    · rw [if_pos hex] at h
      obtain ⟨h1, k, hk, hq, hall⟩ := ih (i + 1) q h
      refine ⟨h1, k, by omega, hq, ?_⟩
      intro j hij hjk
      by_cases hji : j = i
      · rw [hji]
        exact hex
      · exact hall j (by omega) hjk
    · rw [if_neg hex] at h
      cases h
      refine ⟨by cases hx : ex (uniqueCandidate base ext i) with
        | false => rfl
        | true => exact absurd hx hex, i, Nat.le_refl i, rfl, ?_⟩
      intro j h1 h2
      omega

/-- `_unique_path` (src/converter.py lines 63-73): the result is free; an
already-free path is returned unchanged; an occupied path gets the first
free `_k` suffix, `k ≥ 1`. -/
theorem unique_path_spec (ex : Cell → Bool) (fuel : Nat) (p q : Cell)
    (h : unique_path ex fuel p = some q) :
    ex q = false ∧ (ex p = false → q = p) ∧
    (ex p = true →
      ∃ k, 1 ≤ k ∧ q = uniqueCandidate (splitextOf p).1 (splitextOf p).2 k ∧
        ∀ j, 1 ≤ j → j < k →
          ex (uniqueCandidate (splitextOf p).1 (splitextOf p).2 j) = true) := by
  unfold unique_path at h
  by_cases hex : ex p = true
  · rw [if_pos hex] at h
    obtain ⟨h1, k, hk, hq, hall⟩ := uniquePathAux_spec ex _ _ fuel 1 q h
    exact ⟨h1, fun hf => absurd hex (by rw [hf]; decide), fun _ => ⟨k, hk, hq, hall⟩⟩
  · rw [if_neg hex] at h
    cases h
    have hf : ex p = false := by
      cases hx : ex p with
      | false => rfl
      | true => exact absurd hx hex
    exact ⟨hf, fun _ => rfl, fun ht => absurd ht hex⟩

/-- With overwrite disabled, every path the write loop writes is absent from
the path set it started from, and the paths of different loop iterations
never collide (each iteration extends the set both its paths were checked
against). -/
theorem importWriteLoop_noclobber (ext rusEnc engDir rusDir : Cell)
    (fuel total : Nat) (items : List (Cell × (List Cell × List Cell))) :
    ∀ (i : Nat) (exist : List Cell),
      (∀ wa wb, (wa, wb) ∈ (importWriteLoop false ext rusEnc engDir rusDir fuel
          total i exist items).1 →
        wa.path ∉ exist ∧ wb.path ∉ exist) ∧
      List.Pairwise (fun x y => x.1.path ≠ y.1.path ∧ x.1.path ≠ y.2.path ∧
          x.2.path ≠ y.1.path ∧ x.2.path ≠ y.2.path)
        (importWriteLoop false ext rusEnc engDir rusDir fuel total i exist items).1 := by
  induction items with
  | nil =>
    intro i exist
    exact ⟨fun wa wb hmem => absurd hmem (List.not_mem_nil _), List.Pairwise.nil⟩
  | cons item rest ih =>
    intro i exist
    obtain ⟨name, ab⟩ := item
    simp only [importWriteLoop]
    rw [if_neg (by decide : ¬ ((false : Bool) = true))]
    rw [if_neg (by decide : ¬ ((false : Bool) = true))]
    split
    · next ep2 rp2 heq1 heq2 =>
      have hep : ep2 ∉ exist := by
        have hspec := unique_path_spec _ fuel _ ep2 heq1
        exact not_mem_of_contains_false exist ep2 hspec.1
      have hrp : rp2 ∉ exist := by
        have hspec := unique_path_spec _ fuel _ rp2 heq2
        exact not_mem_of_contains_false exist rp2 hspec.1
      obtain ⟨ihf, ihp⟩ := ih (i + 1) (exist ++ [ep2, rp2])
      constructor
      · intro wa wb hmem
        rcases List.mem_cons.1 hmem with heq | hmem'
        · cases heq
          exact ⟨hep, hrp⟩
        · obtain ⟨h1, h2⟩ := ihf wa wb hmem'
          exact ⟨fun hx => h1 (List.mem_append_left _ hx),
                 fun hx => h2 (List.mem_append_left _ hx)⟩
      · rw [List.pairwise_cons]
        refine ⟨?_, ihp⟩
        intro y hy
        obtain ⟨hy1, hy2⟩ := ihf y.1 y.2 (by
          cases y
          exact hy)
        have hmem2 : ∀ z : Cell, z = ep2 ∨ z = rp2 → z ∈ exist ++ [ep2, rp2] := by
          intro z hz
          rcases hz with rfl | rfl
          · exact List.mem_append_right _ (by simp)
          · exact List.mem_append_right _ (by simp)
        exact ⟨fun he => hy1 (he ▸ hmem2 _ (Or.inl rfl)),
               fun he => hy2 (he ▸ hmem2 _ (Or.inl rfl)),
               fun he => hy1 (he ▸ hmem2 _ (Or.inr rfl)),
               fun he => hy2 (he ▸ hmem2 _ (Or.inr rfl))⟩
    · exact ⟨fun wa wb hmem => absurd hmem (List.not_mem_nil _), List.Pairwise.nil⟩


/-- C6 (amended): with overwrite disabled, no file that existed before the
call is ever written over — every written path is chosen free of the
pre-call filesystem — and the paths written by different loop iterations
never collide, so importing the same document twice yields two disjoint
file sets and the first result is never lost; each occupied path is
rewritten to the first free `_1`, `_2`, … candidate.  However, because both
paths of one item are uniquified before either of the item's two writes,
the side-B write of an item can land on the very path of its own side-A
write (see the counterexample with equal output folders). -/
theorem C6_no_clobber (fs : List Cell) (tables : List (List Row))
    (wordPath engDir rusDir : Cell) (fuel : Nat) :
    (∀ wa wb, (wa, wb) ∈
        (import_from_word fs tables wordPath engDir rusDir false fuel).writes →
      wa.path ∉ fs ∧ wb.path ∉ fs) ∧
    List.Pairwise (fun x y => x.1.path ≠ y.1.path ∧ x.1.path ≠ y.2.path ∧
        x.2.path ≠ y.1.path ∧ x.2.path ≠ y.2.path)
      (import_from_word fs tables wordPath engDir rusDir false fuel).writes ∧
    (∀ (ex : Cell → Bool) (fl : Nat) (p q : Cell),
      unique_path ex fl p = some q →
      ex q = false ∧ (ex p = false → q = p) ∧
      (ex p = true →
        ∃ k, 1 ≤ k ∧ q = uniqueCandidate (splitextOf p).1 (splitextOf p).2 k ∧
          ∀ j, 1 ≤ j → j < k →
            ex (uniqueCandidate (splitextOf p).1 (splitextOf p).2 j) = true)) := by
  refine ⟨?_, ?_, fun ex fl p q h => unique_path_spec ex fl p q h⟩
  · intro wa wb hmem
    unfold import_from_word at hmem
    split at hmem
    · exact (importWriteLoop_noclobber _ _ _ _ fuel _ _ 1 fs).1 wa wb hmem
    · cases hmem
  · unfold import_from_word
    split
    · exact (importWriteLoop_noclobber _ _ _ _ fuel _ _ 1 fs).2
    · exact List.Pairwise.nil

/-- Witness for C6: with `o/a.txt` already existing, the side-A write is
diverted to the fresh `o/a_1.txt` and neither write touches a pre-existing
path. -/
theorem C6_no_clobber_witness :
    (⟨S "o/a_1.txt", S "x", S "utf-8"⟩ : WriteEff).path ∉ [S "w", S "o/a.txt"] ∧
    (⟨S "r/a.txt", S "y", S "cp1251"⟩ : WriteEff).path ∉ [S "w", S "o/a.txt"] :=
  (C6_no_clobber [S "w", S "o/a.txt"]
    [[headerRow (S "txt"), markerRow (S "a"), ⟨S "x", S "y"⟩]]
    (S "w") (S "o") (S "r") 5).1
    ⟨S "o/a_1.txt", S "x", S "utf-8"⟩ ⟨S "r/a.txt", S "y", S "cp1251"⟩ (by decide)

/-- Counterexample to C6 as stated: with the two output folders equal, both
paths of the item are uniquified before either write, so the side-B write
goes to the very path the side-A write has just created — an existing file
at a computed output path is replaced despite overwrite being disabled. -/
theorem C6_counterexample :
    (import_from_word [S "doc.docx"]
      [[headerRow (S "txt"), markerRow (S "a"), ⟨S "x", S "y"⟩]]
      (S "doc.docx") (S "out") (S "out") false 5).writes =
      [(⟨S "out/a.txt", S "x", S "utf-8"⟩, ⟨S "out/a.txt", S "y", S "cp1251"⟩)] ∧
    (⟨S "out/a.txt", S "x", S "utf-8"⟩ : WriteEff).path =
      (⟨S "out/a.txt", S "y", S "cp1251"⟩ : WriteEff).path := by
  decide

/-! ## Claim C7 -/

/-- C7 (amended): importing a missing document raises the not-found error
before any output directory is created; but importing an existing document
that contains no table completes with no error, creating both output
directories and writing no files — the code raises no configuration error
for a table-less document, contrary to the claim. -/
theorem C7_import_errors (fs : List Cell) (tables : List (List Row))
    (wordPath engDir rusDir : Cell) (overwrite : Bool) (fuel : Nat) :
    (fs.contains wordPath = false →
      import_from_word fs tables wordPath engDir rusDir overwrite fuel =
        ⟨[], [], [], some .notFound⟩) ∧
    (fs.contains wordPath = true → tables = [] →
      import_from_word fs tables wordPath engDir rusDir overwrite fuel =
        ⟨[engDir, rusDir], [], [], none⟩) := by
  constructor
  · intro h
    unfold import_from_word
    rw [h]
    rw [if_neg (by decide : ¬ ((false : Bool) = true))]
  · intro h htab
    subst htab
    unfold import_from_word
    rw [h, if_pos rfl]
    rfl

/-- Witness for C7: a concrete missing document aborts with untouched
directories, and a concrete table-less document completes silently. -/
theorem C7_import_errors_witness :
    import_from_word [] [] (S "w") (S "e") (S "r") false 3 =
      ⟨[], [], [], some .notFound⟩ ∧
    import_from_word [S "w"] [] (S "w") (S "e") (S "r") false 3 =
      ⟨[S "e", S "r"], [], [], none⟩ :=
  ⟨(C7_import_errors [] [] (S "w") (S "e") (S "r") false 3).1 (by decide),
   (C7_import_errors [S "w"] [] (S "w") (S "e") (S "r") false 3).2 (by decide) rfl⟩

/-- Counterexample to C7 as stated: an existing document with no
recognizable table does not raise any error — the import completes with
`error = none` and no written files. -/
theorem C7_counterexample :
    import_from_word [S "w"] [] (S "w") (S "e") (S "r") false 3 =
      ⟨[S "e", S "r"], [], [], none⟩ ∧
    (import_from_word [S "w"] [] (S "w") (S "e") (S "r") false 3).error = none := by
  decide


/-! ## Claim C8 -/

/-- C8 (amended): export raises the configuration error on an empty input
list and the not-found error on the first missing path, in both cases
before any progress is made or anything is saved at the output path; and
whenever export raises any error — including a mid-loop read failure — the
document is never saved at the output path, because `doc.save` runs only
after the whole loop (src/converter.py line 151): a mid-loop I/O failure
leaves nothing, not partial output, at the output path. -/
theorem C8_export_errors (fs : FSModel) (engPaths rusPaths : List Cell)
    (outputPath : Cell) :
    ((engPaths = [] ∨ rusPaths = []) →
      export_paths_to_word fs engPaths rusPaths outputPath =
        ⟨[], [], [], none, some .noFiles⟩) ∧
    (∀ p, ¬ (engPaths = [] ∨ rusPaths = []) →
      (engPaths ++ rusPaths).find? (fun q => !fs.pexists q) = some p →
      export_paths_to_word fs engPaths rusPaths outputPath =
        ⟨[], [], [], none, some (.notFound p)⟩ ∧ fs.pexists p = false) ∧
    (∀ e, (export_paths_to_word fs engPaths rusPaths outputPath).error = some e →
      (export_paths_to_word fs engPaths rusPaths outputPath).saved = none) := by
  refine ⟨?_, ?_, ?_⟩
  · intro h
    unfold export_paths_to_word
    rw [if_pos h]
  · intro p hne hfind
    constructor
    · unfold export_paths_to_word
      rw [if_neg hne, hfind]
    · have := List.find?_some hfind
      simp only [Bool.not_eq_true'] at this
      exact this
  · intro e
    unfold export_paths_to_word
    split
    · intro _
      rfl
    · split
      · intro _
        rfl
      · split
        · split
          · intro he
            have he' : (exportLoop fs (exportPairsList engPaths rusPaths).length 1
                (exportPairsList engPaths rusPaths)).2.2 = some e := he
            show (if (exportLoop fs (exportPairsList engPaths rusPaths).length 1
                (exportPairsList engPaths rusPaths)).2.2 = none then
                some (outputPath, _) else none) = none
            rw [if_neg (by rw [he']; intro hx; cases hx)]
          · intro _
            rfl
        · intro _
          rfl

/-- Witness for C8: empty input lists abort with the configuration error and
nothing saved; and at the concrete mid-loop-failure run of the
counterexample, the error implies nothing was saved. -/
theorem C8_export_errors_witness :
    export_paths_to_word ⟨fun _ => true, fun _ => some []⟩ [] [] (S "o.docx") =
      ⟨[], [], [], none, some .noFiles⟩ ∧
    (export_paths_to_word
      ⟨fun _ => true, fun p => if p = S "e/b.txt" then none else some [S "x"]⟩
      [S "e/a.txt", S "e/b.txt"] [S "r/a.txt", S "r/b.txt"] (S "out.docx")).saved
      = none :=
  ⟨(C8_export_errors ⟨fun _ => true, fun _ => some []⟩ [] [] (S "o.docx")).1
      (Or.inl rfl),
   (C8_export_errors
      ⟨fun _ => true, fun p => if p = S "e/b.txt" then none else some [S "x"]⟩
      [S "e/a.txt", S "e/b.txt"] [S "r/a.txt", S "r/b.txt"] (S "out.docx")).2.2
      (.readFail (S "e/b.txt")) (by decide)⟩

/-- Counterexample to C8 as stated: a run whose second read fails mid-loop
(after one full pair was processed and one progress call issued) aborts with
the read error and nothing at all at the output path — the export loop can
never leave partial output there, because saving happens only after the
loop. -/
theorem C8_counterexample :
    export_paths_to_word
      ⟨fun _ => true, fun p => if p = S "e/b.txt" then none else some [S "x"]⟩
      [S "e/a.txt", S "e/b.txt"] [S "r/a.txt", S "r/b.txt"] (S "out.docx") =
      ⟨[], [], [(1, 2)], none, some (.readFail (S "e/b.txt"))⟩ := by
  decide


/-! ## Claim C3 -/

theorem rstripCRLF_exists_append (l : Cell) :
    ∃ t, l = rstripCRLF l ++ t ∧ ∀ c ∈ t, isCRLF c = true := by
  refine ⟨(List.takeWhile isCRLF l.reverse).reverse, ?_, ?_⟩
  · have h := List.takeWhile_append_dropWhile isCRLF l.reverse
    have h2 := congrArg List.reverse h
    rw [List.reverse_append, List.reverse_reverse] at h2
    exact h2.symm
  · intro c hc
    rw [List.mem_reverse] at hc
    exact List.mem_takeWhile_imp hc

theorem rstripCRLF_getLast (l : Cell) (c : Char)
    (h : (rstripCRLF l).getLast? = some c) : isCRLF c = false := by
  have h2 : (List.dropWhile isCRLF l.reverse).head? = some c := by
    have := List.getLast?_reverse (List.dropWhile isCRLF l.reverse)
    rw [← this]
    exact h
  exact head?_dropWhile isCRLF l.reverse c h2

theorem rstripCRLF_of_no_crlf (l : Cell) (h : ∀ c ∈ l, isCRLF c = false) :
    rstripCRLF l = l := by
  unfold rstripCRLF
  cases hr : l.reverse with
  | nil =>
    have : l = [] := by
      have := congrArg List.reverse hr
      simpa using this
    rw [this]
    rfl
  | cons c cs =>
    have hc : c ∈ l := by
      rw [← List.mem_reverse, hr]
      exact List.mem_cons_self _ _
    rw [List.dropWhile_cons, if_neg (by simp [h c hc])]
    have := congrArg List.reverse hr
    simpa using this.symm

/-- C3: each line returned by the Line Reader equals the corresponding
physical line of the (universal-newline-translated) file with only trailing
CR and LF characters removed: the kept part is a prefix of the physical
line, the dropped suffix consists solely of CR/LF, the kept part never ends
in CR/LF, and a line consisting solely of spaces and tabs is returned as
that whitespace, not as the empty string. -/
theorem C3_line_reader (content : Cell) (i : Nat)
    (h : i < (splitPhysLines (translateNL content)).length) :
    (∃ t, (splitPhysLines (translateNL content)).getD i [] =
        (read_lines_core content).getD i [] ++ t ∧
        (∀ c ∈ t, c = '\r' ∨ c = '\n') ∧
        (∀ c, ((read_lines_core content).getD i []).getLast? = some c →
          ¬ (c = '\r' ∨ c = '\n'))) ∧
    (∀ l : Cell, (∀ c ∈ l, c = ' ' ∨ c = '\t') → rstripCRLF l = l) := by
  constructor
  · have hlen : i < (read_lines_core content).length := by
      simpa [read_lines_core] using h
    have hget : (read_lines_core content).getD i [] =
        rstripCRLF ((splitPhysLines (translateNL content)).getD i []) := by
      rw [List.getD_eq_getElem _ _ hlen, List.getD_eq_getElem _ _ h]
      simp [read_lines_core]
    obtain ⟨t, ht, htc⟩ :=
      rstripCRLF_exists_append ((splitPhysLines (translateNL content)).getD i [])
    refine ⟨t, by rw [hget]; exact ht, ?_, ?_⟩
    · intro c hc
      have := htc c hc
      simp [isCRLF] at this
      exact this
    · intro c hc
      rw [hget] at hc
      have := rstripCRLF_getLast _ c hc
      simp [isCRLF] at this
      simp [this.1, this.2]
  · intro l hl
    apply rstripCRLF_of_no_crlf
    intro c hc
    rcases hl c hc with rfl | rfl <;> rfl

/-- Witness for C3: a line of spaces and tabs survives the reader intact. -/
theorem C3_line_reader_witness : rstripCRLF (S " \t ") = S " \t " :=
  (C3_line_reader (S " \t \na") 0 (by decide)).2 (S " \t ") (by decide)


/-! ## Claim C9 -/

/-- Classification of a character as CR (0), LF (1) or other (2): the only
information about a character that the line splitting uses. -/
def nlKind (c : Char) : Nat := if c = '\r' then 0 else if c = '\n' then 1 else 2

/-- `translateNL` transported to kind sequences. -/
def translateNLK : List Nat → List Nat
  | [] => []
  | k :: rest =>
    if k = 0 then
      match rest with
      | [] => [1]
      | k2 :: rest2 =>
        if k2 = 1 then 1 :: translateNLK rest2
        else 1 :: translateNLK (k2 :: rest2)
    else k :: translateNLK rest

/-- The physical line count of a kind sequence. -/
def physLineCountK : List Nat → Nat
  | [] => 0
  | k :: ks =>
    if k = 1 then 1 + physLineCountK ks
    else if ks = [] then 1 else physLineCountK ks

theorem splitPhysLines_eq_nil_iff (cs : Cell) :
    splitPhysLines cs = [] ↔ cs = [] := by
  cases cs with
  | nil => simp [splitPhysLines]
  | cons c cs =>
    simp only [splitPhysLines]
    constructor
    · intro h
      by_cases hc : c = '\n'
      · rw [if_pos hc] at h
        cases h
      · rw [if_neg hc] at h
        cases hsp : splitPhysLines cs with
        | nil =>
          rw [hsp] at h
          cases h
        | cons l ls =>
          rw [hsp] at h
          cases h
    · intro h
      cases h

theorem splitPhysLines_length_kind (cs : Cell) :
    (splitPhysLines cs).length = physLineCountK (cs.map nlKind) := by
  induction cs with
  | nil => rfl
  | cons c cs ih =>
    by_cases hc : c = '\n'
    · subst hc
      have hsplit : splitPhysLines ('\n' :: cs) = ['\n'] :: splitPhysLines cs := by
        simp [splitPhysLines]
      have hcount : physLineCountK (List.map nlKind ('\n' :: cs)) =
          1 + physLineCountK (List.map nlKind cs) := by
        simp [physLineCountK, nlKind]
      rw [hsplit, hcount, List.length_cons, ih]
      omega
    · have hk : nlKind c ≠ 1 := by
        unfold nlKind
        by_cases h0 : c = '\r'
        · rw [if_pos h0]
          omega
        · rw [if_neg h0, if_neg hc]
          omega
      have hsplit : splitPhysLines (c :: cs) =
          (match splitPhysLines cs with
           | [] => [[c]]
           | l :: ls => (c :: l) :: ls) := by
        simp [splitPhysLines, hc]
      have hcount : physLineCountK (List.map nlKind (c :: cs)) =
          if List.map nlKind cs = [] then 1
          else physLineCountK (List.map nlKind cs) := by
        simp [physLineCountK, hk]
      rw [hsplit, hcount]
      by_cases hcs : cs = []
      · subst hcs
        simp [splitPhysLines]
      · have h1 : splitPhysLines cs ≠ [] :=
          fun h => hcs ((splitPhysLines_eq_nil_iff cs).1 h)
        rw [if_neg (by simpa using hcs)]
        cases hsp : splitPhysLines cs with
        | nil => exact absurd hsp h1
        | cons l ls =>
          rw [hsp] at ih
          simpa using ih

theorem translateNL_map_kind (cs : Cell) :
    (translateNL cs).map nlKind = translateNLK (cs.map nlKind) := by
  induction cs using translateNL.induct with
  | case1 => rfl
  | case2 => decide
  | case3 rest2 ih =>
    have h1 : translateNL ('\r' :: '\n' :: rest2) = '\n' :: translateNL rest2 := by
      simp [translateNL]
    rw [h1, List.map_cons, List.map_cons, List.map_cons]
    have hr : nlKind '\r' = 0 := by decide
    have hn : nlKind '\n' = 1 := by decide
    rw [hr, hn]
    have h3 : translateNLK (0 :: 1 :: rest2.map nlKind) =
        1 :: translateNLK (rest2.map nlKind) := rfl
    rw [h3, ih]
  | case4 d rest2 hd ih =>
    have h1 : translateNL ('\r' :: d :: rest2) = '\n' :: translateNL (d :: rest2) := by
      simp [translateNL, hd]
    rw [h1, List.map_cons, List.map_cons, List.map_cons]
    have hr : nlKind '\r' = 0 := by decide
    have hn : nlKind '\n' = 1 := by decide
    rw [hr, hn]
    have hkd : nlKind d ≠ 1 := by
      unfold nlKind
      by_cases h0 : d = '\r'
      · rw [if_pos h0]
        omega
      · rw [if_neg h0, if_neg hd]
        omega
    have h3 : translateNLK (0 :: nlKind d :: rest2.map nlKind) =
        1 :: translateNLK (nlKind d :: rest2.map nlKind) := by
      show (if (0 : Nat) = 0 then
          if nlKind d = 1 then 1 :: translateNLK (rest2.map nlKind)
          else 1 :: translateNLK (nlKind d :: rest2.map nlKind)
        else 0 :: translateNLK (nlKind d :: rest2.map nlKind)) =
        1 :: translateNLK (nlKind d :: rest2.map nlKind)
      rw [if_pos rfl, if_neg hkd]
    rw [h3]
    rw [List.map_cons] at ih
    rw [ih]
  | case5 c rest hc ih =>
    have h1 : translateNL (c :: rest) = c :: translateNL rest := by
      cases rest with
      | nil =>
        show (if c = '\r' then ['\n'] else c :: translateNL []) = c :: translateNL []
        rw [if_neg hc]
      | cons d rest2 =>
        show (if c = '\r' then
            if d = '\n' then '\n' :: translateNL rest2
            else '\n' :: translateNL (d :: rest2)
          else c :: translateNL (d :: rest2)) = c :: translateNL (d :: rest2)
        rw [if_neg hc]
    rw [h1, List.map_cons, List.map_cons]
    have hkc : nlKind c ≠ 0 := by
      unfold nlKind
      rw [if_neg hc]
      by_cases h2 : c = '\n'
      · rw [if_pos h2]
        omega
      · rw [if_neg h2]
        omega
    have h3 : translateNLK (nlKind c :: rest.map nlKind) =
        nlKind c :: translateNLK (rest.map nlKind) := by
      cases hrest : rest.map nlKind with
      | nil =>
        show (if nlKind c = 0 then [1] else nlKind c :: translateNLK []) =
          nlKind c :: translateNLK []
        rw [if_neg hkc]
      | cons k2 ks =>
        show (if nlKind c = 0 then
            if k2 = 1 then 1 :: translateNLK ks
            else 1 :: translateNLK (k2 :: ks)
          else nlKind c :: translateNLK (k2 :: ks)) = _
        rw [if_neg hkc]
    rw [h3, ih]

/-- The number of lines the reader returns depends only on the CR/LF
skeleton of the decoded characters. -/
theorem read_lines_core_length_kind (cs : Cell) :
    (read_lines_core cs).length = physLineCountK (translateNLK (cs.map nlKind)) := by
  unfold read_lines_core
  rw [List.length_map, splitPhysLines_length_kind, translateNL_map_kind]

/-- C9: for a single-byte encoding whose table maps exactly byte 10 to LF
and exactly byte 13 to CR (both valid), reading with `errors='replace'` is
total, replaces each undecodable byte with the replacement character, and
returns exactly as many lines as it would had every byte been decodable;
and the reader's error path propagates only when the first read and the
single retry under the default encoding both fail. -/
theorem C9_encoding_resilience (valid : Nat → Bool) (table : Nat → Char)
    (bs : List Nat)
    (hv10 : valid 10 = true) (hv13 : valid 13 = true)
    (ht10 : ∀ b, table b = '\n' ↔ b = 10)
    (ht13 : ∀ b, table b = '\r' ↔ b = 13) :
    (read_lines_auto_bytes valid table bs).length =
      (read_lines_auto_bytes (fun _ => true) table bs).length ∧
    (∀ i, i < bs.length → valid (bs.getD i 0) = false →
      (decodeReplace valid table bs).getD i ' ' = replacementChar) ∧
    (∀ f1 f2, read_lines_auto_retry f1 f2 = none ↔ f1 = none ∧ f2 = none) := by
  refine ⟨?_, ?_, ?_⟩
  · unfold read_lines_auto_bytes
    rw [read_lines_core_length_kind, read_lines_core_length_kind]
    have hmap : (decodeReplace valid table bs).map nlKind =
        (decodeReplace (fun _ => true) table bs).map nlKind := by
      unfold decodeReplace
      rw [List.map_map, List.map_map]
      apply List.map_congr_left
      intro b _
      show nlKind (decodeByteReplace valid table b) =
        nlKind (decodeByteReplace (fun _ => true) table b)
      unfold decodeByteReplace
      by_cases hv : valid b = true
      · rw [if_pos hv, if_pos rfl]
      · rw [if_neg hv, if_pos rfl]
        have h1 : nlKind replacementChar = 2 := by decide
        have hb10 : b ≠ 10 := fun h => hv (h ▸ hv10)
        have hb13 : b ≠ 13 := fun h => hv (h ▸ hv13)
        have h2 : nlKind (table b) = 2 := by
          unfold nlKind
          rw [if_neg (fun h => hb13 ((ht13 b).1 h)),
              if_neg (fun h => hb10 ((ht10 b).1 h))]
        rw [h1, h2]
    rw [hmap]
  · intro i hi hval
    have hlen : i < (decodeReplace valid table bs).length := by
      simpa [decodeReplace] using hi
    rw [List.getD_eq_getElem _ _ hlen]
    unfold decodeReplace
    rw [List.getElem_map]
    rw [List.getD_eq_getElem _ _ hi] at hval
    unfold decodeByteReplace
    rw [hval]
    simp
  · intro f1 f2
    cases f1 <;> cases f2 <;> simp [read_lines_auto_retry]

/-- Witness for C9: a byte stream with the invalid byte 152 between two
letters and a newline has the same line count as under a fully-permissive
decode, and the invalid byte decodes to the replacement character. -/
theorem C9_encoding_resilience_witness :
    (read_lines_auto_bytes (fun b => if b = 152 then false else true)
        (fun b => if b = 10 then '\n' else if b = 13 then '\r'
                  else if b = 152 then 'Ш' else 'x')
        [104, 152, 10, 105]).length =
      (read_lines_auto_bytes (fun _ => true)
        (fun b => if b = 10 then '\n' else if b = 13 then '\r'
                  else if b = 152 then 'Ш' else 'x')
        [104, 152, 10, 105]).length ∧
    (decodeReplace (fun b => if b = 152 then false else true)
        (fun b => if b = 10 then '\n' else if b = 13 then '\r'
                  else if b = 152 then 'Ш' else 'x')
        [104, 152, 10, 105]).getD 1 ' ' = replacementChar := by
  have h := C9_encoding_resilience
    (fun b => if b = 152 then false else true)
    (fun b => if b = 10 then '\n' else if b = 13 then '\r'
              else if b = 152 then 'Ш' else 'x')
    [104, 152, 10, 105]
    rfl rfl
    (by
      intro b
      show (if b = 10 then '\n' else if b = 13 then '\r'
            else if b = 152 then 'Ш' else 'x') = '\n' ↔ b = 10
      constructor
      · intro hb
        by_cases h10 : b = 10
        · exact h10
        · rw [if_neg h10] at hb
          by_cases h13 : b = 13
          · rw [if_pos h13] at hb
            exact absurd hb (by decide)
          · rw [if_neg h13] at hb
            by_cases h152 : b = 152
            · rw [if_pos h152] at hb
              exact absurd hb (by decide)
            · rw [if_neg h152] at hb
              exact absurd hb (by decide)
      · intro hb
        subst hb
        decide)
    (by
      intro b
      show (if b = 10 then '\n' else if b = 13 then '\r'
            else if b = 152 then 'Ш' else 'x') = '\r' ↔ b = 13
      constructor
      · intro hb
        by_cases h10 : b = 10
        · rw [if_pos h10] at hb
          exact absurd hb (by decide)
        · rw [if_neg h10] at hb
          by_cases h13 : b = 13
          · exact h13
          · rw [if_neg h13] at hb
            by_cases h152 : b = 152
            · rw [if_pos h152] at hb
              exact absurd hb (by decide)
            · rw [if_neg h152] at hb
              exact absurd hb (by decide)
      · intro hb
        subst hb
        decide)
  exact ⟨h.1, h.2.1 1 (by decide) (by decide)⟩


/-! ## Claim C2: pairing lemmas -/

theorem buildMap_aux_mem (paths : List Cell) :
    ∀ (d : List (Cell × Cell)) (n : Cell),
      n ∈ dictKeys (paths.foldl (fun d p => dictSet d (basenameOf p) p) d) ↔
      n ∈ dictKeys d ∨ ∃ p ∈ paths, basenameOf p = n := by
  induction paths with
  | nil =>
    intro d n
    simp
  | cons p ps ih =>
    intro d n
    show n ∈ dictKeys (ps.foldl (fun d p => dictSet d (basenameOf p) p)
      (dictSet d (basenameOf p) p)) ↔ _
    rw [ih]
    rw [mem_dictKeys_dictSet]
    constructor
    · intro hx
      rcases hx with (hx | hx) | hx
      · exact Or.inl hx
      · exact Or.inr ⟨p, List.mem_cons_self _ _, hx.symm⟩
      · obtain ⟨q, hq, hqn⟩ := hx
        exact Or.inr ⟨q, List.mem_cons_of_mem _ hq, hqn⟩
    · intro hx
      rcases hx with hx | ⟨q, hq, hqn⟩
      · exact Or.inl (Or.inl hx)
      · rcases List.mem_cons.1 hq with rfl | hq'
        · exact Or.inl (Or.inr hqn.symm)
        · exact Or.inr ⟨q, hq', hqn⟩

theorem mem_buildMap_keys (paths : List Cell) (n : Cell) :
    n ∈ dictKeys (buildMap paths) ↔ ∃ p ∈ paths, basenameOf p = n := by
  unfold buildMap
  rw [buildMap_aux_mem]
  simp [dictKeys]

theorem buildMap_aux_nodup (paths : List Cell) :
    ∀ (d : List (Cell × Cell)), (dictKeys d).Nodup →
      (dictKeys (paths.foldl (fun d p => dictSet d (basenameOf p) p) d)).Nodup := by
  induction paths with
  | nil =>
    intro d hd
    exact hd
  | cons p ps ih =>
    intro d hd
    exact ih _ (dictKeys_nodup_dictSet d (basenameOf p) p hd)

theorem buildMap_keys_nodup (paths : List Cell) :
    (dictKeys (buildMap paths)).Nodup := by
  unfold buildMap
  exact buildMap_aux_nodup paths [] (by simp [dictKeys])

theorem pairedNames_nodup (engPaths rusPaths : List Cell) :
    (pairedNames engPaths rusPaths).Nodup :=
  (buildMap_keys_nodup engPaths).filter _

theorem mem_pairedNames (engPaths rusPaths : List Cell) (b : Cell) :
    b ∈ pairedNames engPaths rusPaths ↔
      (∃ p ∈ engPaths, basenameOf p = b) ∧ (∃ q ∈ rusPaths, basenameOf q = b) := by
  unfold pairedNames
  rw [List.mem_filter]
  rw [mem_buildMap_keys]
  constructor
  · intro ⟨h1, h2⟩
    refine ⟨h1, ?_⟩
    rw [← mem_buildMap_keys]
    exact (dictGet_isSome_iff_mem _ _).1 h2
  · intro ⟨h1, h2⟩
    refine ⟨h1, ?_⟩
    rw [← mem_buildMap_keys] at h2
    exact (dictGet_isSome_iff_mem _ _).2 h2

theorem mem_missingNames (fromPaths otherPaths : List Cell) (b : Cell) :
    b ∈ missingNames fromPaths otherPaths ↔
      (∃ p ∈ fromPaths, basenameOf p = b) ∧ ¬ (∃ q ∈ otherPaths, basenameOf q = b) := by
  unfold missingNames
  rw [List.mem_filter, mem_buildMap_keys]
  constructor
  · intro ⟨h1, h2⟩
    refine ⟨h1, ?_⟩
    intro hq
    rw [← mem_buildMap_keys, ← dictGet_isSome_iff_mem] at hq
    rw [Option.isNone_iff_eq_none] at h2
    rw [h2] at hq
    cases hq
  · intro ⟨h1, h2⟩
    refine ⟨h1, ?_⟩
    rw [Option.isNone_iff_eq_none]
    cases hx : dictGet (buildMap otherPaths) b with
    | none => rfl
    | some v =>
      exfalso
      apply h2
      rw [← mem_buildMap_keys, ← dictGet_isSome_iff_mem, hx]
      rfl

theorem count_eq_one_of_nodup_mem (l : List Cell) (b : Cell) (hn : l.Nodup)
    (hb : b ∈ l) : l.count b = 1 := by
  induction l with
  | nil => cases hb
  | cons x xs ih =>
    rw [List.nodup_cons] at hn
    rcases List.mem_cons.1 hb with rfl | hb'
    · have hz : xs.count b = 0 := by
        rw [List.count_eq_zero]
        exact hn.1
      rw [List.count_cons_self, hz]
    · have hxb : (x == b) = false := by
        by_cases hx : x = b
        · exact absurd (hx ▸ hb') hn.1
        · exact beq_false_of_ne hx
      rw [List.count_cons, ih hn.2 hb', hxb]
      simp

theorem count_pairedNames (engPaths rusPaths : List Cell) (b : Cell) :
    (pairedNames engPaths rusPaths).count b =
      (if (∃ p ∈ engPaths, basenameOf p = b) ∧ (∃ q ∈ rusPaths, basenameOf q = b)
       then 1 else 0) := by
  by_cases h : (∃ p ∈ engPaths, basenameOf p = b) ∧ (∃ q ∈ rusPaths, basenameOf q = b)
  · rw [if_pos h]
    exact count_eq_one_of_nodup_mem _ _ (pairedNames_nodup _ _)
      ((mem_pairedNames _ _ _).2 h)
  · rw [if_neg h]
    rw [List.count_eq_zero]
    intro hmem
    exact h ((mem_pairedNames _ _ _).1 hmem)


theorem mem_insertSorted (x : Cell) (l : List Cell) (y : Cell) :
    y ∈ insertSorted x l ↔ y = x ∨ y ∈ l := by
  induction l with
  | nil => simp [insertSorted]
  | cons z zs ih =>
    unfold insertSorted
    by_cases h : cellLE x z
    · rw [if_pos h]
      simp
    · rw [if_neg h]
      rw [List.mem_cons, ih, List.mem_cons]
      tauto

theorem count_insertSorted (x : Cell) (l : List Cell) (y : Cell) :
    (insertSorted x l).count y = ((x :: l).count y) := by
  induction l with
  | nil => rfl
  | cons z zs ih =>
    unfold insertSorted
    by_cases h : cellLE x z
    · rw [if_pos h]
    · rw [if_neg h]
      rw [List.count_cons, ih, List.count_cons, List.count_cons, List.count_cons]
      omega

theorem count_sortCells (l : List Cell) (y : Cell) :
    (sortCells l).count y = l.count y := by
  unfold sortCells
  induction l with
  | nil => rfl
  | cons x xs ih =>
    show (insertSorted x (xs.foldr insertSorted [])).count y = _
    rw [count_insertSorted, List.count_cons, List.count_cons, ih]

theorem mem_sortCells (l : List Cell) (y : Cell) :
    y ∈ sortCells l ↔ y ∈ l := by
  unfold sortCells
  induction l with
  | nil => simp
  | cons x xs ih =>
    show y ∈ insertSorted x (xs.foldr insertSorted []) ↔ _
    rw [mem_insertSorted, ih, List.mem_cons]

theorem contains_true_iff_mem (l : List Cell) (q : Cell) :
    l.contains q = true ↔ q ∈ l := by
  rw [show l.contains q = l.elem q from rfl, List.elem_eq_mem, decide_eq_true_eq]

theorem filesFiltered_nodup (files : List Cell) (ext : Cell) :
    (filesFiltered files ext).Nodup := by
  unfold filesFiltered
  exact List.nodup_dedup _

theorem count_folderPaired (engFiles rusFiles : List Cell) (ext b : Cell) :
    (folderPaired engFiles rusFiles ext).count b =
      (if b ∈ filesFiltered engFiles ext ∧ b ∈ filesFiltered rusFiles ext
       then 1 else 0) := by
  unfold folderPaired
  rw [count_sortCells]
  by_cases h : b ∈ filesFiltered engFiles ext ∧ b ∈ filesFiltered rusFiles ext
  · rw [if_pos h]
    apply count_eq_one_of_nodup_mem
    · exact (filesFiltered_nodup engFiles ext).filter _
    · rw [List.mem_filter]
      exact ⟨h.1, (contains_true_iff_mem _ _).2 h.2⟩
  · rw [if_neg h]
    rw [List.count_eq_zero]
    intro hmem
    rw [List.mem_filter] at hmem
    exact h ⟨hmem.1, (contains_true_iff_mem _ _).1 hmem.2⟩

theorem mem_folderMissing (fromFiles otherFiles : List Cell) (ext b : Cell) :
    b ∈ folderMissing fromFiles otherFiles ext ↔
      b ∈ filesFiltered fromFiles ext ∧ b ∉ filesFiltered otherFiles ext := by
  unfold folderMissing
  rw [mem_sortCells, List.mem_filter]
  constructor
  · intro ⟨h1, h2⟩
    refine ⟨h1, fun hmem => ?_⟩
    rw [Bool.not_eq_true'] at h2
    exact absurd ((contains_true_iff_mem _ _).2 hmem) (by rw [h2]; intro hx; cases hx)
  · intro ⟨h1, h2⟩
    refine ⟨h1, ?_⟩
    rw [Bool.not_eq_true']
    cases hx : (filesFiltered otherFiles ext).contains b with
    | false => rfl
    | true => exact absurd ((contains_true_iff_mem _ _).1 hx) h2

/-- With every read succeeding, the export loop emits exactly the sections
of its pairs, in order, and no error. -/
theorem exportLoop_success (fs : FSModel)
    (hread : ∀ p, (fs.readLines p).isSome = true)
    (prs : List (Cell × Cell × Cell)) :
    ∀ (total idx : Nat),
      ∃ prog, exportLoop fs total idx prs =
        ((prs.map (fun x => sectionRows x.1 ((fs.readLines x.2.1).getD [])
            ((fs.readLines x.2.2).getD []))).flatten, prog, none) := by
  induction prs with
  | nil =>
    intro total idx
    exact ⟨[], rfl⟩
  | cons x rest ih =>
    intro total idx
    obtain ⟨name, ep, rp⟩ := x
    obtain ⟨engL, hengL⟩ := Option.isSome_iff_exists.1 (hread ep)
    obtain ⟨rusL, hrusL⟩ := Option.isSome_iff_exists.1 (hread rp)
    obtain ⟨prog, hprog⟩ := ih total (idx + 1)
    refine ⟨(idx, total) :: prog, ?_⟩
    simp only [exportLoop, hengL, hrusL, hprog, List.map_cons, List.flatten_cons]
    simp


/-- A fully validated export run: both lists nonempty, all paths present,
one supported side-A extension, all reads succeeding.  The result logs the
two missing-pair warning lists, saves the header plus one section per paired
basename, and raises nothing. -/
theorem export_paths_success (fs : FSModel) (engPaths rusPaths : List Cell)
    (outputPath : Cell)
    (hne : ¬ (engPaths = [] ∨ rusPaths = []))
    (hex : (engPaths ++ rusPaths).find? (fun q => !fs.pexists q) = none)
    (e : Cell) (hext : extList engPaths = [e])
    (he : e = S ".txt" ∨ e = S ".srt")
    (hread : ∀ p, (fs.readLines p).isSome = true) :
    ∃ prog, export_paths_to_word fs engPaths rusPaths outputPath =
      ⟨missingNames engPaths rusPaths, missingNames rusPaths engPaths, prog,
       some (outputPath, headerRow (e.dropWhile (fun c => c = '.')) ::
         ((exportPairsList engPaths rusPaths).map (fun x =>
            sectionRows x.1 ((fs.readLines x.2.1).getD [])
              ((fs.readLines x.2.2).getD []))).flatten),
       none⟩ := by
  obtain ⟨prog, hloop⟩ := exportLoop_success fs hread
    (exportPairsList engPaths rusPaths)
    (exportPairsList engPaths rusPaths).length 1
  refine ⟨prog, ?_⟩
  unfold export_paths_to_word
  rw [if_neg hne, hex]
  dsimp only
  rw [hext]
  dsimp only
  rw [if_pos he]
  rw [hloop]
  rfl


/-- C2 (amended): in explicit-list mode a fully validated export saves one
document with exactly one section per basename present on both sides (the
section list is indexed by `pairedNames`, whose names are pairwise distinct),
counts each such basename exactly once, and records a warning containing
each basename present on only one side; unmatched basenames never abort the
run.  In folder mode the same holds for the collections as filtered to the
selected extension — a basename present in both folders but carrying a
different extension is silently ignored: no section and no warning (see the
counterexample). -/
theorem C2_pairing_completeness (fs : FSModel) (engPaths rusPaths : List Cell)
    (outputPath : Cell)
    (hne1 : engPaths ≠ []) (hne2 : rusPaths ≠ [])
    (hex : (engPaths ++ rusPaths).find? (fun q => !fs.pexists q) = none)
    (hext : extList engPaths = [S ".txt"] ∨ extList engPaths = [S ".srt"])
    (hread : ∀ p, (fs.readLines p).isSome = true) :
    (∃ e prog, extList engPaths = [e] ∧
      export_paths_to_word fs engPaths rusPaths outputPath =
        ⟨missingNames engPaths rusPaths, missingNames rusPaths engPaths, prog,
         some (outputPath, headerRow (e.dropWhile (fun c => c = '.')) ::
           ((exportPairsList engPaths rusPaths).map (fun x =>
              sectionRows x.1 ((fs.readLines x.2.1).getD [])
                ((fs.readLines x.2.2).getD []))).flatten),
         none⟩) ∧
    ((exportPairsList engPaths rusPaths).map (fun x => x.1) =
      pairedNames engPaths rusPaths) ∧
    (pairedNames engPaths rusPaths).Nodup ∧
    (∀ b,
      ((∃ p ∈ engPaths, basenameOf p = b) ∧ (∃ q ∈ rusPaths, basenameOf q = b) →
        (pairedNames engPaths rusPaths).count b = 1) ∧
      ((∃ p ∈ engPaths, basenameOf p = b) ∧ ¬ (∃ q ∈ rusPaths, basenameOf q = b) →
        (pairedNames engPaths rusPaths).count b = 0 ∧
        b ∈ missingNames engPaths rusPaths) ∧
      (¬ (∃ p ∈ engPaths, basenameOf p = b) ∧ (∃ q ∈ rusPaths, basenameOf q = b) →
        (pairedNames engPaths rusPaths).count b = 0 ∧
        b ∈ missingNames rusPaths engPaths)) ∧
    (∀ (engFiles rusFiles : List Cell) (ext b : Cell),
      (b ∈ filesFiltered engFiles ext ∧ b ∈ filesFiltered rusFiles ext →
        (folderPaired engFiles rusFiles ext).count b = 1) ∧
      (b ∈ filesFiltered engFiles ext ∧ b ∉ filesFiltered rusFiles ext →
        (folderPaired engFiles rusFiles ext).count b = 0 ∧
        b ∈ folderMissing engFiles rusFiles ext) ∧
      (b ∉ filesFiltered engFiles ext ∧ b ∈ filesFiltered rusFiles ext →
        (folderPaired engFiles rusFiles ext).count b = 0 ∧
        b ∈ folderMissing rusFiles engFiles ext)) := by
  have hne : ¬ (engPaths = [] ∨ rusPaths = []) := by
    intro h
    rcases h with h | h
    · exact hne1 h
    · exact hne2 h
  refine ⟨?_, ?_, pairedNames_nodup _ _, ?_, ?_⟩
  · rcases hext with hext | hext
    · obtain ⟨prog, hres⟩ := export_paths_success fs engPaths rusPaths outputPath
        hne hex (S ".txt") hext (Or.inl rfl) hread
      exact ⟨S ".txt", prog, hext, hres⟩
    · obtain ⟨prog, hres⟩ := export_paths_success fs engPaths rusPaths outputPath
        hne hex (S ".srt") hext (Or.inr rfl) hread
      exact ⟨S ".srt", prog, hext, hres⟩
  · unfold exportPairsList
    rw [List.map_map]
    exact List.map_id _
  · intro b
    refine ⟨?_, ?_, ?_⟩
    · intro h
      rw [count_pairedNames, if_pos h]
    · intro ⟨h1, h2⟩
      refine ⟨?_, (mem_missingNames _ _ _).2 ⟨h1, h2⟩⟩
      rw [count_pairedNames, if_neg (fun hc => h2 hc.2)]
    · intro ⟨h1, h2⟩
      refine ⟨?_, (mem_missingNames _ _ _).2 ⟨h2, h1⟩⟩
      rw [count_pairedNames, if_neg (fun hc => h1 hc.1)]
  · intro engFiles rusFiles ext b
    refine ⟨?_, ?_, ?_⟩
    · intro h
      rw [count_folderPaired, if_pos h]
    · intro ⟨h1, h2⟩
      refine ⟨?_, (mem_folderMissing _ _ _ _).2 ⟨h1, h2⟩⟩
      rw [count_folderPaired, if_neg (fun hc => h2 hc.2)]
    · intro ⟨h1, h2⟩
      refine ⟨?_, (mem_folderMissing _ _ _ _).2 ⟨h2, h1⟩⟩
      rw [count_folderPaired, if_neg (fun hc => h1 hc.1)]

/-- Witness for C2: one matched basename `a.txt` and one side-B-only
basename `c.txt`; the run succeeds, pairs `a.txt` once and warns about
`c.txt`. -/
theorem C2_pairing_completeness_witness :
    (pairedNames [S "e/a.txt"] [S "r/a.txt", S "r/c.txt"]).count (S "a.txt") = 1 ∧
    (pairedNames [S "e/a.txt"] [S "r/a.txt", S "r/c.txt"]).count (S "c.txt") = 0 ∧
    S "c.txt" ∈ missingNames [S "r/a.txt", S "r/c.txt"] [S "e/a.txt"] ∧
    (export_paths_to_word ⟨fun _ => true, fun _ => some [S "L"]⟩
      [S "e/a.txt"] [S "r/a.txt", S "r/c.txt"] (S "out.docx")).error = none := by
  obtain ⟨⟨e, prog, -, hres⟩, -, -, hb, -⟩ := C2_pairing_completeness
    ⟨fun _ => true, fun _ => some [S "L"]⟩
    [S "e/a.txt"] [S "r/a.txt", S "r/c.txt"] (S "out.docx")
    (by decide) (by decide) (by decide) (Or.inl (by decide)) (fun p => rfl)
  obtain ⟨hb1, -, -⟩ := hb (S "a.txt")
  obtain ⟨-, -, hb3⟩ := hb (S "c.txt")
  obtain ⟨hc1, hc2⟩ := hb3 (by decide)
  refine ⟨hb1 (by decide), hc1, hc2, ?_⟩
  rw [hres]

/-- Counterexample to C2 as stated: in folder mode, the basename `a.pdf` is
present in both input collections, yet the run (with the inferred extension
"txt") produces zero sections for it and records no warning about it. -/
theorem C2_counterexample :
    (S "a.pdf" ∈ [S "a.pdf", S "b.txt"] ∧ S "a.pdf" ∈ [S "a.pdf", S "b.txt"]) ∧
    inferExt [S "a.pdf", S "b.txt"] = some (S "txt") ∧
    (folderPaired [S "a.pdf", S "b.txt"] [S "a.pdf", S "b.txt"] (S "txt")).count
      (S "a.pdf") = 0 ∧
    folderMissing [S "a.pdf", S "b.txt"] [S "a.pdf", S "b.txt"] (S "txt") = [] ∧
    S "a.pdf" ∉ folderPaired [S "a.pdf", S "b.txt"] [S "a.pdf", S "b.txt"] (S "txt") := by
  decide

end Mars
